import Mathlib

/-!
Verification of the MinimaxAlphaBetaPruning repository: a shallow embedding of
`Board.py` (the obstruction game board) and `Solver.py` (minimax and
alpha-beta search), together with theorems settling the specification claims.

Machine conventions: Python integers are modelled as `Int`, the float values
`inf` and `-inf` together with integer utilities are modelled by
`EU := WithBot (WithTop Int)`, and the recursive search is modelled with a
fuel parameter (`countOpen` strictly decreases on every successful `place`,
so `countOpen + 1` fuel always suffices).
-/

/-- The four square values: `MAX = "O"`, `MIN = "X"`, `OPEN = "-"`,
`BLOCKED = "/"` from the top of `Board.py`. -/
inductive Cell where
  | MAX
  | MIN
  | OPEN
  | BLOCKED
deriving DecidableEq, Repr

/-- A board grid: the 2D list `_tiles` of `ObstructionBoard`. -/
abbrev Grid := List (List Cell)

/-- Read `g[i][j]`, returning `BLOCKED` out of range (all uses are guarded by
range checks exactly as in the Python source, so the default is never the
value actually read on a rectangular grid). -/
def cellD (g : Grid) (i j : Int) : Cell :=
  (g.getD i.toNat []).getD j.toNat Cell.BLOCKED

/-- Write `g[i][j] = v` (no-op out of range, mirroring guarded use). -/
def setC (g : Grid) (i j : Int) (v : Cell) : Grid :=
  g.set i.toNat ((g.getD i.toNat []).set j.toNat v)

/-- Number of `OPEN` cells in a grid. -/
def countOpen (g : Grid) : Nat :=
  (g.map (fun row => row.countP (fun c => c == Cell.OPEN))).sum

/-- The state data of `ObstructionBoard`: `_tiles`, `_open_cnt`, `_MAX_turn`
and `_action`.  (`_utility` and `chosen_child` are annotations written by the
search; they live on the search tree `GTree` in this embedding.) -/
structure Board where
  tiles : Grid
  open_cnt : Int
  MAX_turn : Bool
  action : Option (Int × Int)
deriving DecidableEq, Repr

namespace Board

/-- `height` property: row count. -/
def height (b : Board) : Nat := b.tiles.length

/-- `width` property: `len(self._tiles[0])`. -/
def width (b : Board) : Nat := (b.tiles.headD []).length

/-- `done` property: `self._open_cnt == 0`. -/
def done (b : Board) : Bool := b.open_cnt == 0

/-- `winner` property: `None` unless done, else `MIN` if `_MAX_turn` else
`MAX`. -/
def winner (b : Board) : Option Cell :=
  if ¬ b.done then none else some (if b.MAX_turn then Cell.MIN else Cell.MAX)

end Board

/-- `ObstructionBoard.create(width, height)`. -/
def create (w h : Int) : Option Board :=
  if w < 1 ∨ h < 1 then none
  else some
    { tiles := List.replicate h.toNat (List.replicate w.toNat Cell.OPEN)
      open_cnt := w * h
      MAX_turn := true
      action := none }

/-- The nine `(i, j)` pairs visited by the blocking loops of `place`, in
Python iteration order (`i` in `range(row-1, row+2)` outer, `j` inner). -/
def nbhd (row col : Int) : List (Int × Int) :=
  [(row - 1, col - 1), (row - 1, col), (row - 1, col + 1),
   (row, col - 1), (row, col), (row, col + 1),
   (row + 1, col - 1), (row + 1, col), (row + 1, col + 1)]

/-- One step of the blocking loop of `place`: block the square and decrement
the open count when the square is in range and currently `OPEN`. -/
def blockStep (h w : Nat) (p : Grid × Int) (m : Int × Int) : Grid × Int :=
  if 0 ≤ m.1 ∧ m.1 < (h : Int) ∧ 0 ≤ m.2 ∧ m.2 < (w : Int) ∧
      cellD p.1 m.1 m.2 = Cell.OPEN then
    (setC p.1 m.1 m.2 Cell.BLOCKED, p.2 - 1)
  else p

/-- `ObstructionBoard.place(row, col)`: fail on an out-of-range or non-open
square, otherwise mark the square for the current player, block all open
surrounding squares, update the open count, and flip the turn. -/
def place (b : Board) (row col : Int) : Option Board :=
  if ¬ (0 ≤ row ∧ row < (b.height : Int)) ∨ ¬ (0 ≤ col ∧ col < (b.width : Int)) ∨
      cellD b.tiles row col ≠ Cell.OPEN then
    none
  else
    let marked := setC b.tiles row col (if b.MAX_turn then Cell.MAX else Cell.MIN)
    let r := (nbhd row col).foldl (blockStep b.height b.width) (marked, b.open_cnt - 1)
    some { tiles := r.1, open_cnt := r.2, MAX_turn := !b.MAX_turn,
           action := some (row, col) }

/-- Utility values: Python mixes integer evaluation scores with the floats
`inf` and `-inf`; the order-embedding `Int` with a top and a bottom element
models exactly the comparisons performed. -/
abbrev EU := WithBot (WithTop Int)

/-- A finite (integer) utility value. -/
def euInt (n : Int) : EU := ((n : WithTop Int) : EU)

/-- The float `-inf`. -/
def negInf : EU := ⊥

/-- The float `inf`. -/
def posInf : EU := ((⊤ : WithTop Int) : EU)

/-- `_evaluate_node(board)` from `Board.py`: the open count, except that a
single remaining open square scores `width * height + 1`; positive when it is
MAX's turn, negated otherwise. -/
def evaluateNode (b : Board) : Int :=
  let util : Int := if b.open_cnt = 1 then (b.width : Int) * (b.height : Int) + 1 else b.open_cnt
  if b.MAX_turn then util else -util

/-- The lazily computed `utility` property for a state whose utility was not
assigned by the search: `inf` if MAX won, `-inf` if MIN won, otherwise the
evaluation function. -/
def utilityOf (b : Board) : EU :=
  if b.done then (if b.MAX_turn then negInf else posInf)
  else euInt (evaluateNode b)

/-- Python's `max(a, b)`: returns `a` on ties.  Pointwise equal to `max`. -/
def pmax (a b : EU) : EU := if a < b then b else a

/-- Python's `min(a, b)`: returns `a` on ties.  Pointwise equal to `min`. -/
def pmin (a b : EU) : EU := if b < a then b else a

/-- The `node_data` argument of `_base_minimax`: an `MMData` (depth only) or
an `ABData` (depth, alpha, beta). -/
inductive NodeData where
  | mm (depth : Int)
  | ab (depth : Int) (alpha beta : EU)
deriving DecidableEq, Repr

namespace NodeData

/-- The `depth` field of either record. -/
def depth : NodeData → Int
  | .mm d => d
  | .ab d _ _ => d

/-- `child()`: decrease the remaining depth (and keep alpha and beta). -/
def child : NodeData → NodeData
  | .mm d => .mm (d - 1)
  | .ab d a b => .ab (d - 1) a b

/-- `update_alpha(u)`: a no-op for `MMData`; for `ABData`, raise alpha to `u`
if `u` is larger. -/
def updAlpha : NodeData → EU → NodeData
  | .mm d, _ => .mm d
  | .ab d a b, u => .ab d (if a < u then u else a) b

/-- `update_beta(u)`: a no-op for `MMData`; for `ABData`, lower beta to `u`
if `u` is smaller. -/
def updBeta : NodeData → EU → NodeData
  | .mm d, _ => .mm d
  | .ab d a b, u => .ab d a (if u < b then u else b)

/-- `prune()`: `False` for `MMData`; `alpha >= beta` for `ABData`. -/
def prune : NodeData → Bool
  | .mm _ => false
  | .ab _ a b => decide (b ≤ a)

end NodeData

/-- The game tree produced by `_base_minimax`: the Python list
`[state] + children`, together with the two annotations the search writes
onto the state object: `_utility` (`none` while lazily unset) and
`chosen_child` (recorded here as the chosen child's board state). -/
inductive GTree where
  | mk (board : Board) (utilAnn : Option EU) (chosen : Option Board)
       (children : List GTree)

namespace GTree

/-- The state wrapped by this node. -/
def board : GTree → Board
  | .mk b _ _ _ => b

/-- The `_utility` annotation (still `none` on an unexpanded leaf). -/
def utilAnn : GTree → Option EU
  | .mk _ u _ _ => u

/-- The `chosen_child` annotation. -/
def chosen : GTree → Option Board
  | .mk _ _ c _ => c

/-- The explored child subtrees, in exploration order. -/
def children : GTree → List GTree
  | .mk _ _ _ cs => cs

end GTree

/-- Reading `state.utility`: the explicitly assigned value if the search set
one, otherwise the lazy terminal/evaluation value. -/
def treeUtil (t : GTree) : EU := (t.utilAnn).getD (utilityOf t.board)

/-- The mutable loop state of the move loop in `_base_minimax`: the running
`state.utility`, `state.chosen_child`, accumulated children and expansion
count, the (possibly updated) `node_data`, and whether the `break` fired. -/
structure LoopAcc where
  util : EU
  chosen : Option Board
  children : List GTree
  expanded : Nat
  nd : NodeData
  stopped : Bool

/-- Row-major enumeration of all `(row, column)` pairs:
`for i in range(state.height): for j in range(state.width)`. -/
def allMoves (b : Board) : List (Int × Int) :=
  (List.range b.height).flatMap
    (fun i => (List.range b.width).map (fun j => (Int.ofNat i, Int.ofNat j)))

/-- The loop state on entry: running utility `-inf` for MAX (`inf` for MIN),
no chosen child, no children, no expanded descendants, the incoming
`node_data`, loop running. -/
def initAcc (b : Board) (nd : NodeData) : LoopAcc :=
  { util := if b.MAX_turn then negInf else posInf
    chosen := none
    children := []
    expanded := 0
    nd := nd
    stopped := false }

/-- Appending the freshly expanded child: `node.append(child)` and
`total_expanded += expanded`. -/
def pushAcc (recf : Board → NodeData → GTree × Nat) (b : Board)
    (acc : LoopAcc) (nb : Board) : LoopAcc :=
  { acc with children := acc.children ++ [(recf nb acc.nd.child).1],
             expanded := acc.expanded + (recf nb acc.nd.child).2 }

/-- `temp = max_or_min(state.utility, new_state.utility)`. -/
def tempOf (recf : Board → NodeData → GTree × Nat) (b : Board)
    (acc : LoopAcc) (nb : Board) : EU :=
  if b.MAX_turn then pmax acc.util (treeUtil (recf nb acc.nd.child).1)
  else pmin acc.util (treeUtil (recf nb acc.nd.child).1)

/-- `update_ab(temp)`: the node data after the possible alpha/beta update. -/
def ndOf (recf : Board → NodeData → GTree × Nat) (b : Board)
    (acc : LoopAcc) (nb : Board) : NodeData :=
  if b.MAX_turn then acc.nd.updAlpha (tempOf recf b acc nb)
  else acc.nd.updBeta (tempOf recf b acc nb)

/-- The body run for one successfully placed child `nb`: append the
expanded subtree, then record a new best child (updating the utility,
alpha/beta, and possibly breaking with the prune rule) when the comparison
improves or no child was chosen yet. -/
def stepBody (recf : Board → NodeData → GTree × Nat) (b : Board)
    (acc : LoopAcc) (nb : Board) : LoopAcc :=
  if tempOf recf b acc nb ≠ acc.util ∨ acc.chosen = none then
    if (ndOf recf b acc nb).prune then
      { pushAcc recf b acc nb with
          util := tempOf recf b acc nb,
          chosen := if tempOf recf b acc nb = posInf ∨
                      tempOf recf b acc nb = negInf
                    then some nb else none,
          nd := ndOf recf b acc nb, stopped := true }
    else { pushAcc recf b acc nb with
             util := tempOf recf b acc nb, chosen := some nb,
             nd := ndOf recf b acc nb }
  else pushAcc recf b acc nb

/-- One iteration of the move loop of `_base_minimax`, parameterised by the
recursive call `recf` used on child states.  After the `break` fired
(`stopped`) the remaining iterations do nothing. -/
def stepMoveF (recf : Board → NodeData → GTree × Nat) (b : Board)
    (acc : LoopAcc) (m : Int × Int) : LoopAcc :=
  if acc.stopped then acc
  else
    match place b m.1 m.2 with
    | none => acc
    | some nb => stepBody recf b acc nb

/-- `_base_minimax(state, node_data)`, with a fuel argument: each recursive
call is on a board with strictly fewer open squares, so any fuel above
`countOpen` computes the untruncated recursion (the wrappers below pass
`countOpen + 1`).  Returns the produced tree and `total_expanded`. -/
def bmFuel : Nat → Board → NodeData → GTree × Nat
  | 0, b, _ => (GTree.mk b none none [], 1)
  | f + 1, b, nd =>
    if nd.depth ≠ 0 ∧ b.done = false then
      let r := (allMoves b).foldl (stepMoveF (bmFuel f) b) (initAcc b nd)
      (GTree.mk b (some r.util) r.chosen r.children, 1 + r.expanded)
    else (GTree.mk b none none [], 1)

/-- Fuel that always suffices for `_base_minimax` on `b`. -/
def searchFuel (b : Board) : Nat := countOpen b.tiles + 1

/-- `minimax(state, depth)`. -/
def minimax (b : Board) (d : Int) : GTree × Nat :=
  bmFuel (searchFuel b) b (.mm d)

/-- `minimax_ab(state, depth)`: alpha starts at `-inf`, beta at `inf`. -/
def minimax_ab (b : Board) (d : Int) : GTree × Nat :=
  bmFuel (searchFuel b) b (.ab d negInf posInf)

/-- The legal successors of `b` for the moves `ms`, in order. -/
def legalSucc (b : Board) (ms : List (Int × Int)) : List Board :=
  ms.filterMap (fun m => place b m.1 m.2)

/-- The reference minimax value: the backed-up value `minimax` computes,
written as a plain fold over legal successors (proved below to equal the
root utility of `minimax`). -/
def mmVal : Nat → Board → Int → EU
  | 0, b, _ => utilityOf b
  | f + 1, b, d =>
    if d ≠ 0 ∧ b.done = false then
      (legalSucc b (allMoves b)).foldl
        (fun u nb =>
          if b.MAX_turn then pmax u (mmVal f nb (d - 1))
          else pmin u (mmVal f nb (d - 1)))
        (if b.MAX_turn then negInf else posInf)
    else utilityOf b

/-- A grid is rectangular with row length `w`: the shape every board built by
`create` and `place` has. -/
def RectG (g : Grid) (w : Nat) : Prop := ∀ row ∈ g, row.length = w

/-- A board whose grid is rectangular of its own width. -/
def Rect (b : Board) : Prop := RectG b.tiles b.width

/-- In-range coordinates, as checked by `place`. -/
def inR (H W : Nat) (q : Int × Int) : Prop :=
  0 ≤ q.1 ∧ q.1 < (H : Int) ∧ 0 ≤ q.2 ∧ q.2 < (W : Int)

instance (H W : Nat) (q : Int × Int) : Decidable (inR H W q) := by
  unfold inR; exact inferInstance

section ListLemmas

variable {α : Type} (p : α → Bool)

theorem set_cons_s (a : α) (t : List α) (n : Nat) (v : α) :
    (a :: t).set (n + 1) v = a :: t.set n v := rfl

theorem getD_set_self (l : List α) (n : Nat) (v d : α) (h : n < l.length) :
    (l.set n v).getD n d = v := by
  induction l generalizing n with
  | nil => simp at h
  | cons a t ih =>
    cases n with
    | zero => simp
    | succ m =>
      simp only [set_cons_s, List.getD_cons_succ]
      exact ih m (by simpa using h)

theorem getD_set_ne (l : List α) (n m : Nat) (v d : α) (h : n ≠ m) :
    (l.set n v).getD m d = l.getD m d := by
  induction l generalizing n m with
  | nil => simp [List.set]
  | cons a t ih =>
    cases n with
    | zero =>
      cases m with
      | zero => exact absurd rfl h
      | succ k => simp
    | succ n' =>
      cases m with
      | zero => simp
      | succ k =>
        simp only [set_cons_s, List.getD_cons_succ]
        exact ih n' k (by omega)

theorem countP_set (l : List α) (n : Nat) (v d : α) (h : n < l.length) :
    (l.set n v).countP p + (if p (l.getD n d) then 1 else 0) =
      l.countP p + (if p v then 1 else 0) := by
  induction l generalizing n with
  | nil => simp at h
  | cons a t ih =>
    cases n with
    | zero => simp [List.countP_cons]; omega
    | succ m =>
      simp only [set_cons_s, List.countP_cons, List.getD_cons_succ]
      have := ih m (by simpa using h)
      omega

theorem map_sum_set (f : List α → Nat) (g : List (List α)) (n : Nat)
    (r : List α) (h : n < g.length) :
    ((g.set n r).map f).sum + f (g.getD n []) = (g.map f).sum + f r := by
  induction g generalizing n with
  | nil => simp at h
  | cons a t ih =>
    cases n with
    | zero => simp; omega
    | succ m =>
      simp only [set_cons_s, List.map_cons, List.sum_cons,
        List.getD_cons_succ]
      have := ih m (by simpa using h)
      omega

theorem getD_out (l : List α) (n : Nat) (d : α) (h : l.length ≤ n) :
    l.getD n d = d := by
  induction l generalizing n with
  | nil => simp [List.getD]
  | cons a t ih =>
    cases n with
    | zero => simp at h
    | succ m => simpa using ih m (by simpa using h)

end ListLemmas

section GridLemmas

/-- A cell that reads `OPEN` (or anything except the default `BLOCKED`) is a
real in-grid position. -/
theorem cellD_real {g : Grid} {i j : Int} (h : cellD g i j ≠ Cell.BLOCKED) :
    i.toNat < g.length ∧ j.toNat < (g.getD i.toNat []).length := by
  unfold cellD at h
  constructor
  · by_contra hlen
    rw [getD_out g i.toNat [] (by omega)] at h
    simp [List.getD] at h
  · by_contra hlen
    rw [getD_out (g.getD i.toNat []) j.toNat Cell.BLOCKED (by omega)] at h
    exact h rfl

theorem length_setC (g : Grid) (i j : Int) (v : Cell) :
    (setC g i j v).length = g.length := by
  simp [setC]

theorem rowlen_setC (g : Grid) (i j : Int) (v : Cell) (k : Nat) :
    ((setC g i j v).getD k []).length = (g.getD k []).length := by
  unfold setC
  by_cases hk : i.toNat = k
  · subst hk
    by_cases hr : i.toNat < g.length
    · rw [getD_set_self _ _ _ _ hr]; simp
    · rw [List.set_eq_of_length_le (by omega)]
  · rw [getD_set_ne _ _ _ _ _ hk]

theorem cellD_setC_self {g : Grid} {i j : Int} (v : Cell)
    (hi : i.toNat < g.length) (hj : j.toNat < (g.getD i.toNat []).length) :
    cellD (setC g i j v) i j = v := by
  unfold cellD setC
  rw [getD_set_self _ _ _ _ hi, getD_set_self _ _ _ _ hj]

theorem cellD_setC_ne {g : Grid} {i j i' j' : Int} (v : Cell)
    (hi : 0 ≤ i) (hj : 0 ≤ j) (hi' : 0 ≤ i') (hj' : 0 ≤ j')
    (hne : (i, j) ≠ (i', j')) :
    cellD (setC g i j v) i' j' = cellD g i' j' := by
  unfold cellD setC
  by_cases hrow : i.toNat = i'.toNat
  · have hij : i = i' := by omega
    have hcol : j.toNat ≠ j'.toNat := by
      have : j ≠ j' := by
        intro hjj; exact hne (by rw [hij, hjj])
      omega
    rw [hrow]
    by_cases hr : i'.toNat < g.length
    · rw [getD_set_self _ _ _ _ hr, getD_set_ne _ _ _ _ _ hcol]
    · rw [List.set_eq_of_length_le (by omega)]
  · rw [getD_set_ne _ _ _ _ _ hrow]

theorem countOpen_setC_open {g : Grid} {i j : Int} {v : Cell}
    (h : cellD g i j = Cell.OPEN) (hv : v ≠ Cell.OPEN) :
    countOpen (setC g i j v) + 1 = countOpen g := by
  have hreal := @cellD_real g i j (by rw [h]; simp)
  unfold countOpen setC
  have hrow := countP_set (fun c => c == Cell.OPEN)
    (g.getD i.toNat []) j.toNat v Cell.BLOCKED hreal.2
  have hgrid := map_sum_set (fun row => row.countP (fun c => c == Cell.OPEN))
    g i.toNat ((g.getD i.toNat []).set j.toNat v) hreal.1
  unfold cellD at h
  rw [h] at hrow
  simp only [hv, beq_iff_eq, if_true, if_false, reduceIte] at hrow hgrid ⊢
  omega

theorem countOpen_setC_le {g : Grid} {i j : Int} {v : Cell}
    (hv : v ≠ Cell.OPEN) :
    countOpen (setC g i j v) ≤ countOpen g := by
  by_cases h : cellD g i j = Cell.OPEN
  · have := countOpen_setC_open h hv; omega
  · by_cases hreal : i.toNat < g.length ∧ j.toNat < (g.getD i.toNat []).length
    · unfold countOpen setC
      have hrow := countP_set (fun c => c == Cell.OPEN)
        (g.getD i.toNat []) j.toNat v Cell.BLOCKED hreal.2
      have hgrid := map_sum_set (fun row => row.countP (fun c => c == Cell.OPEN))
        g i.toNat ((g.getD i.toNat []).set j.toNat v) hreal.1
      unfold cellD at h
      simp only [hv, beq_iff_eq, if_false, reduceIte] at hrow hgrid ⊢
      omega
    · rcases Nat.lt_or_ge i.toNat g.length with hi | hi
      · have hj : (g.getD i.toNat []).length ≤ j.toNat := by
          rcases Nat.lt_or_ge j.toNat (g.getD i.toNat []).length with h2 | h2
          · exact absurd ⟨hi, h2⟩ hreal
          · exact h2
        unfold countOpen setC
        rw [@List.set_eq_of_length_le _ (g.getD i.toNat []) j.toNat (by omega)]
        have hgrid := map_sum_set (fun row => row.countP (fun c => c == Cell.OPEN))
          g i.toNat (g.getD i.toNat []) hi
        omega
      · unfold setC
        rw [List.set_eq_of_length_le (by omega)]

end GridLemmas

section PlaceLemmas

/-- The guard of one blocking step: in range and currently open. -/
def BlkG (H W : Nat) (g : Grid) (q : Int × Int) : Prop :=
  0 ≤ q.1 ∧ q.1 < (H : Int) ∧ 0 ≤ q.2 ∧ q.2 < (W : Int) ∧
    cellD g q.1 q.2 = Cell.OPEN

instance (H W : Nat) (g : Grid) (q : Int × Int) : Decidable (BlkG H W g q) := by
  unfold BlkG; exact inferInstance

theorem blockStep_pos {H W : Nat} {g : Grid} {n : Int} {q : Int × Int}
    (h : BlkG H W g q) :
    blockStep H W (g, n) q = (setC g q.1 q.2 Cell.BLOCKED, n - 1) := by
  unfold blockStep
  exact if_pos h

theorem blockStep_neg {H W : Nat} {g : Grid} {n : Int} {q : Int × Int}
    (h : ¬ BlkG H W g q) :
    blockStep H W (g, n) q = (g, n) := by
  unfold blockStep
  exact if_neg h

theorem nbhd_nodup (row col : Int) : (nbhd row col).Nodup := by
  simp only [nbhd, List.nodup_cons, List.mem_cons, List.mem_singleton,
    List.not_mem_nil, or_false, Prod.mk.injEq, not_or, List.nodup_nil,
    and_true, true_and, not_false_iff]
  refine ⟨?_, ?_, ?_, ?_, ?_, ?_, ?_, ?_⟩ <;> omega

theorem center_mem_nbhd (row col : Int) : (row, col) ∈ nbhd row col := by
  simp [nbhd]

/-- Full characterisation of the blocking fold of `place` on a duplicate-free
position list: grid dimensions are unchanged; positions outside the list are
unchanged; listed in-range positions become `BLOCKED` exactly when they were
`OPEN`; and the counter drops once per blocked square. -/
theorem blockFold_spec (H W : Nat) (ps : List (Int × Int)) :
    ∀ (g : Grid) (n : Int), ps.Nodup →
      (((ps.foldl (blockStep H W) (g, n)).1).length = g.length) ∧
      (∀ k : Nat, (((ps.foldl (blockStep H W) (g, n)).1).getD k []).length =
        (g.getD k []).length) ∧
      (∀ q : Int × Int, 0 ≤ q.1 → 0 ≤ q.2 → q ∉ ps →
        cellD (ps.foldl (blockStep H W) (g, n)).1 q.1 q.2 = cellD g q.1 q.2) ∧
      (∀ q ∈ ps, inR H W q →
        cellD (ps.foldl (blockStep H W) (g, n)).1 q.1 q.2 =
          (if cellD g q.1 q.2 = Cell.OPEN then Cell.BLOCKED
           else cellD g q.1 q.2)) ∧
      ((ps.foldl (blockStep H W) (g, n)).2 =
        n - ((ps.filter (fun q => decide (BlkG H W g q))).length : Int)) := by
  induction ps with
  | nil => intro g n _; simp
  | cons p rest ih =>
    intro g n hnd
    have hp_rest : p ∉ rest := (List.nodup_cons.mp hnd).1
    have hnd' : rest.Nodup := (List.nodup_cons.mp hnd).2
    by_cases hg : BlkG H W g p
    · -- the square is blocked
      have hq1 : 0 ≤ p.1 := hg.1
      have hq2 : 0 ≤ p.2 := hg.2.2.1
      have hopen : cellD g p.1 p.2 = Cell.OPEN := hg.2.2.2.2
      have hreal := @cellD_real g p.1 p.2 (by rw [hopen]; simp)
      have hstep : List.foldl (blockStep H W) (g, n) (p :: rest) =
          List.foldl (blockStep H W) (setC g p.1 p.2 Cell.BLOCKED, n - 1) rest := by
        simp only [List.foldl_cons, blockStep_pos hg]
      obtain ⟨ihl, ihrl, ihfr, ihmem, ihcnt⟩ :=
        ih (setC g p.1 p.2 Cell.BLOCKED) (n - 1) hnd'
      -- cells of the one-step grid seen from the original grid
      have hcell_ne : ∀ q : Int × Int, 0 ≤ q.1 → 0 ≤ q.2 → q ≠ p →
          cellD (setC g p.1 p.2 Cell.BLOCKED) q.1 q.2 = cellD g q.1 q.2 := by
        intro q h1 h2 hne
        exact cellD_setC_ne Cell.BLOCKED hq1 hq2 h1 h2
          (by intro he; exact hne (by
            cases q; cases p; simp at he ⊢; exact ⟨he.1.symm, he.2.symm⟩))
      refine ⟨?_, ?_, ?_, ?_, ?_⟩
      · rw [hstep, ihl, length_setC]
      · intro k; rw [hstep, ihrl, rowlen_setC]
      · intro q h1 h2 hq
        have hqp : q ≠ p := by intro he; exact hq (he ▸ List.mem_cons_self p rest)
        have hqr : q ∉ rest := fun hr => hq (List.mem_cons_of_mem p hr)
        rw [hstep, ihfr q h1 h2 hqr, hcell_ne q h1 h2 hqp]
      · intro q hqmem hqin
        rcases List.mem_cons.mp hqmem with rfl | hqr
        · rw [hstep, ihfr q hq1 hq2 hp_rest,
            cellD_setC_self Cell.BLOCKED hreal.1 hreal.2, hopen]
          simp
        · have hqp : q ≠ p := by
            intro he; exact hp_rest (he ▸ hqr)
          rw [hstep, ihmem q hqr hqin, hcell_ne q hqin.1 hqin.2.2.1 hqp]
      · have hfil : rest.filter (fun q => decide (BlkG H W (setC g p.1 p.2 Cell.BLOCKED) q)) =
            rest.filter (fun q => decide (BlkG H W g q)) := by
          apply List.filter_congr
          intro q hq
          apply decide_eq_decide.mpr
          by_cases hin : inR H W q
          · have hqp : q ≠ p := fun he => hp_rest (he ▸ hq)
            unfold BlkG
            rw [hcell_ne q hin.1 hin.2.2.1 hqp]
          · constructor
            · intro hb; exact absurd ⟨hb.1, hb.2.1, hb.2.2.1, hb.2.2.2.1⟩ hin
            · intro hb; exact absurd ⟨hb.1, hb.2.1, hb.2.2.1, hb.2.2.2.1⟩ hin
        have hpfil : (p :: rest).filter (fun q => decide (BlkG H W g q)) =
            p :: rest.filter (fun q => decide (BlkG H W g q)) := by
          rw [List.filter_cons]
          simp [hg]
        rw [hstep, ihcnt, hfil, hpfil]
        simp only [List.length_cons]
        push_cast
        ring
    · -- nothing happens at this square
      have hstep : List.foldl (blockStep H W) (g, n) (p :: rest) =
          List.foldl (blockStep H W) (g, n) rest := by
        simp only [List.foldl_cons, blockStep_neg hg]
      obtain ⟨ihl, ihrl, ihfr, ihmem, ihcnt⟩ := ih g n hnd'
      refine ⟨?_, ?_, ?_, ?_, ?_⟩
      · rw [hstep, ihl]
      · intro k; rw [hstep]; exact ihrl k
      · intro q h1 h2 hq
        exact hstep ▸ ihfr q h1 h2 (fun hr => hq (List.mem_cons_of_mem p hr))
      · intro q hqmem hqin
        rcases List.mem_cons.mp hqmem with rfl | hqr
        · have hnopen : cellD g q.1 q.2 ≠ Cell.OPEN := by
            intro ho
            exact hg ⟨hqin.1, hqin.2.1, hqin.2.2.1, hqin.2.2.2, ho⟩
          rw [hstep, ihfr q hqin.1 hqin.2.2.1 hp_rest, if_neg hnopen]
        · exact hstep ▸ ihmem q hqr hqin
      · have hpfil : (p :: rest).filter (fun q => decide (BlkG H W g q)) =
            rest.filter (fun q => decide (BlkG H W g q)) := by
          rw [List.filter_cons]
          simp [hg]
        rw [hstep, ihcnt, hpfil]

theorem place_eq_none_iff (b : Board) (row col : Int) :
    place b row col = none ↔
      (¬ (0 ≤ row ∧ row < (b.height : Int)) ∨
       ¬ (0 ≤ col ∧ col < (b.width : Int)) ∨
       cellD b.tiles row col ≠ Cell.OPEN) := by
  unfold place
  by_cases h : (¬ (0 ≤ row ∧ row < (b.height : Int)) ∨
      ¬ (0 ≤ col ∧ col < (b.width : Int)) ∨ cellD b.tiles row col ≠ Cell.OPEN)
  · rw [if_pos h]; simpa using h
  · rw [if_neg h]; simpa using h

/-- Elimination form for a successful `place`: the guard held and the result
fields are the marked-then-blocked grid, its counter, the flipped turn and
the recorded action. -/
theorem place_eq_some {b b' : Board} {row col : Int}
    (h : place b row col = some b') :
    (0 ≤ row ∧ row < (b.height : Int)) ∧ (0 ≤ col ∧ col < (b.width : Int)) ∧
    cellD b.tiles row col = Cell.OPEN ∧
    b'.tiles = ((nbhd row col).foldl (blockStep b.height b.width)
      (setC b.tiles row col (if b.MAX_turn then Cell.MAX else Cell.MIN),
        b.open_cnt - 1)).1 ∧
    b'.open_cnt = ((nbhd row col).foldl (blockStep b.height b.width)
      (setC b.tiles row col (if b.MAX_turn then Cell.MAX else Cell.MIN),
        b.open_cnt - 1)).2 ∧
    b'.MAX_turn = !b.MAX_turn ∧ b'.action = some (row, col) := by
  unfold place at h
  by_cases hg : (¬ (0 ≤ row ∧ row < (b.height : Int)) ∨
      ¬ (0 ≤ col ∧ col < (b.width : Int)) ∨ cellD b.tiles row col ≠ Cell.OPEN)
  · rw [if_pos hg] at h; cases h
  · rw [if_neg hg] at h
    push_neg at hg
    obtain ⟨h1, h2, h3⟩ := hg
    have hb' := (Option.some.inj h).symm
    subst hb'
    exact ⟨h1, h2, h3, rfl, rfl, rfl, rfl⟩

theorem mark_ne_open (t : Bool) : (if t then Cell.MAX else Cell.MIN) ≠ Cell.OPEN := by
  cases t <;> simp

theorem blockFold_countOpen_le (H W : Nat) (ps : List (Int × Int)) :
    ∀ (g : Grid) (n : Int),
      countOpen (ps.foldl (blockStep H W) (g, n)).1 ≤ countOpen g := by
  induction ps with
  | nil => intro g n; simp
  | cons p rest ih =>
    intro g n
    by_cases hg : BlkG H W g p
    · simp only [List.foldl_cons, blockStep_pos hg]
      exact le_trans (ih _ _) (countOpen_setC_le (by simp))
    · simp only [List.foldl_cons, blockStep_neg hg]
      exact ih g n

theorem blockFold_sync (H W : Nat) (ps : List (Int × Int)) :
    ∀ (g : Grid) (n : Int),
      (ps.foldl (blockStep H W) (g, n)).2 -
        ((countOpen (ps.foldl (blockStep H W) (g, n)).1 : Int)) =
      n - (countOpen g : Int) := by
  induction ps with
  | nil => intro g n; simp
  | cons p rest ih =>
    intro g n
    by_cases hg : BlkG H W g p
    · simp only [List.foldl_cons, blockStep_pos hg]
      rw [ih]
      have := countOpen_setC_open hg.2.2.2.2 (show Cell.BLOCKED ≠ Cell.OPEN by simp)
      omega
    · simp only [List.foldl_cons, blockStep_neg hg]
      exact ih g n

/-- A successful `place` strictly decreases the number of open squares in the
grid: the termination measure of the search recursion. -/
theorem place_countOpen_lt {b b' : Board} {row col : Int}
    (h : place b row col = some b') :
    countOpen b'.tiles < countOpen b.tiles := by
  obtain ⟨_, _, hopen, htiles, _, _, _⟩ := place_eq_some h
  have hmark := countOpen_setC_open hopen (mark_ne_open b.MAX_turn)
  have hfold := blockFold_countOpen_le b.height b.width (nbhd row col)
    (setC b.tiles row col (if b.MAX_turn then Cell.MAX else Cell.MIN))
    (b.open_cnt - 1)
  rw [htiles]
  omega

/-- A successful `place` keeps `open_cnt` in sync with the actual number of
open squares: the difference between the stored counter and the true count
is preserved. -/
theorem place_sync {b b' : Board} {row col : Int}
    (h : place b row col = some b') :
    b'.open_cnt - (countOpen b'.tiles : Int) =
      b.open_cnt - (countOpen b.tiles : Int) := by
  obtain ⟨_, _, hopen, htiles, hcnt, _, _⟩ := place_eq_some h
  have hmark := countOpen_setC_open hopen (mark_ne_open b.MAX_turn)
  have hfold := blockFold_sync b.height b.width (nbhd row col)
    (setC b.tiles row col (if b.MAX_turn then Cell.MAX else Cell.MIN))
    (b.open_cnt - 1)
  rw [htiles, hcnt]
  omega

theorem place_dims {b b' : Board} {row col : Int}
    (h : place b row col = some b') :
    b'.tiles.length = b.tiles.length ∧
      ∀ k : Nat, (b'.tiles.getD k []).length = (b.tiles.getD k []).length := by
  obtain ⟨_, _, _, htiles, _, _, _⟩ := place_eq_some h
  obtain ⟨hl, hrl, _, _, _⟩ := blockFold_spec b.height b.width (nbhd row col)
    (setC b.tiles row col (if b.MAX_turn then Cell.MAX else Cell.MIN))
    (b.open_cnt - 1) (nbhd_nodup row col)
  constructor
  · rw [htiles, hl, length_setC]
  · intro k; rw [htiles, hrl k, rowlen_setC]

theorem headD_eq_getD_zero {α : Type} (l : List α) (d : α) :
    l.headD d = l.getD 0 d := by
  cases l <;> simp

theorem place_height_width {b b' : Board} {row col : Int}
    (h : place b row col = some b') :
    b'.height = b.height ∧ b'.width = b.width := by
  obtain ⟨hl, hrl⟩ := place_dims h
  refine ⟨hl, ?_⟩
  unfold Board.width
  rw [headD_eq_getD_zero, headD_eq_getD_zero]
  exact hrl 0

/-- The number of squares newly blocked by `place(row, col)`: the in-range
squares of the 3x3 neighbourhood, other than the centre, that were `OPEN`
before the move. -/
def newlyBlocked (b : Board) (row col : Int) : Nat :=
  ((nbhd row col).filter (fun q =>
    decide (q ≠ (row, col)) && decide (BlkG b.height b.width b.tiles q))).length

theorem place_cell_center {b b' : Board} {row col : Int}
    (h : place b row col = some b') :
    cellD b'.tiles row col = (if b.MAX_turn then Cell.MAX else Cell.MIN) := by
  obtain ⟨h1, h2, hopen, htiles, _, _, _⟩ := place_eq_some h
  have hreal := @cellD_real b.tiles row col (by rw [hopen]; simp)
  obtain ⟨_, _, hfr, _, _⟩ := blockFold_spec b.height b.width (nbhd row col)
    (setC b.tiles row col (if b.MAX_turn then Cell.MAX else Cell.MIN))
    (b.open_cnt - 1) (nbhd_nodup row col)
  rw [htiles]
  -- the centre is re-read unchanged by the blocking loop because it is no
  -- longer open; here we use the membership clause of the characterisation
  obtain ⟨_, _, _, hmem, _⟩ := blockFold_spec b.height b.width (nbhd row col)
    (setC b.tiles row col (if b.MAX_turn then Cell.MAX else Cell.MIN))
    (b.open_cnt - 1) (nbhd_nodup row col)
  have hctr := hmem (row, col) (center_mem_nbhd row col)
    ⟨h1.1, h1.2, h2.1, h2.2⟩
  have hmarked : cellD (setC b.tiles row col
      (if b.MAX_turn then Cell.MAX else Cell.MIN)) row col =
      (if b.MAX_turn then Cell.MAX else Cell.MIN) :=
    cellD_setC_self _ hreal.1 hreal.2
  rw [hmarked] at hctr
  rw [if_neg (mark_ne_open b.MAX_turn)] at hctr
  exact hctr.trans hmarked.symm ▸ hctr

theorem place_cell_nbhd {b b' : Board} {row col : Int}
    (h : place b row col = some b') {q : Int × Int}
    (hq : q ∈ nbhd row col) (hne : q ≠ (row, col))
    (hin : inR b.height b.width q) :
    cellD b'.tiles q.1 q.2 =
      (if cellD b.tiles q.1 q.2 = Cell.OPEN then Cell.BLOCKED
       else cellD b.tiles q.1 q.2) := by
  obtain ⟨h1, h2, hopen, htiles, _, _, _⟩ := place_eq_some h
  obtain ⟨_, _, _, hmem, _⟩ := blockFold_spec b.height b.width (nbhd row col)
    (setC b.tiles row col (if b.MAX_turn then Cell.MAX else Cell.MIN))
    (b.open_cnt - 1) (nbhd_nodup row col)
  have hcell : cellD (setC b.tiles row col
      (if b.MAX_turn then Cell.MAX else Cell.MIN)) q.1 q.2 =
      cellD b.tiles q.1 q.2 := by
    apply cellD_setC_ne _ h1.1 h2.1 hin.1 hin.2.2.1
    intro he
    apply hne
    cases q
    simp at he ⊢
    exact ⟨he.1.symm, he.2.symm⟩
  rw [htiles, hmem q hq hin, hcell]

theorem place_cell_far {b b' : Board} {row col : Int}
    (h : place b row col = some b') {q : Int × Int}
    (h1 : 0 ≤ q.1) (h2 : 0 ≤ q.2) (hq : q ∉ nbhd row col) :
    cellD b'.tiles q.1 q.2 = cellD b.tiles q.1 q.2 := by
  obtain ⟨hr1, hr2, hopen, htiles, _, _, _⟩ := place_eq_some h
  obtain ⟨_, _, hfr, _, _⟩ := blockFold_spec b.height b.width (nbhd row col)
    (setC b.tiles row col (if b.MAX_turn then Cell.MAX else Cell.MIN))
    (b.open_cnt - 1) (nbhd_nodup row col)
  have hnectr : q ≠ (row, col) := fun he => hq (he ▸ center_mem_nbhd row col)
  have hcell : cellD (setC b.tiles row col
      (if b.MAX_turn then Cell.MAX else Cell.MIN)) q.1 q.2 =
      cellD b.tiles q.1 q.2 := by
    apply cellD_setC_ne _ hr1.1 hr2.1 h1 h2
    intro he
    apply hnectr
    cases q
    simp at he ⊢
    exact ⟨he.1.symm, he.2.symm⟩
  rw [htiles, hfr q h1 h2 hq, hcell]

theorem place_open_cnt {b b' : Board} {row col : Int}
    (h : place b row col = some b') :
    b'.open_cnt = b.open_cnt - 1 - (newlyBlocked b row col : Int) := by
  obtain ⟨h1, h2, hopen, htiles, hcnt, _, _⟩ := place_eq_some h
  obtain ⟨_, _, _, _, hval⟩ := blockFold_spec b.height b.width (nbhd row col)
    (setC b.tiles row col (if b.MAX_turn then Cell.MAX else Cell.MIN))
    (b.open_cnt - 1) (nbhd_nodup row col)
  rw [hcnt, hval]
  have hfil : (nbhd row col).filter
      (fun q => decide (BlkG b.height b.width (setC b.tiles row col
        (if b.MAX_turn then Cell.MAX else Cell.MIN)) q)) =
      (nbhd row col).filter (fun q =>
        decide (q ≠ (row, col)) &&
          decide (BlkG b.height b.width b.tiles q)) := by
    apply List.filter_congr
    intro q hq
    by_cases hc : q = (row, col)
    · have hreal := @cellD_real b.tiles row col (by rw [hopen]; simp)
      have hmarked : cellD (setC b.tiles row col
          (if b.MAX_turn then Cell.MAX else Cell.MIN)) row col =
          (if b.MAX_turn then Cell.MAX else Cell.MIN) :=
        cellD_setC_self _ hreal.1 hreal.2
      have hnot : ¬ BlkG b.height b.width (setC b.tiles row col
          (if b.MAX_turn then Cell.MAX else Cell.MIN)) (row, col) := by
        intro hb
        have hb' : cellD (setC b.tiles row col
            (if b.MAX_turn then Cell.MAX else Cell.MIN)) row col =
            Cell.OPEN := hb.2.2.2.2
        rw [hmarked] at hb'
        exact mark_ne_open b.MAX_turn hb'
      rw [hc]
      simp [hnot]
    · have hcell : cellD (setC b.tiles row col
          (if b.MAX_turn then Cell.MAX else Cell.MIN)) q.1 q.2 =
          cellD b.tiles q.1 q.2 ∨ ¬ (0 ≤ q.1 ∧ 0 ≤ q.2) := by
        by_cases hnn : 0 ≤ q.1 ∧ 0 ≤ q.2
        · left
          apply cellD_setC_ne _ h1.1 h2.1 hnn.1 hnn.2
          intro he
          apply hc
          cases q
          simp at he ⊢
          exact ⟨he.1.symm, he.2.symm⟩
        · right; exact hnn
      rcases hcell with hcell | hneg
      · have : BlkG b.height b.width (setC b.tiles row col
            (if b.MAX_turn then Cell.MAX else Cell.MIN)) q ↔
            BlkG b.height b.width b.tiles q := by
          unfold BlkG; rw [hcell]
        simp [hc, decide_eq_decide.mpr this]
      · have hnot1 : ¬ BlkG b.height b.width (setC b.tiles row col
            (if b.MAX_turn then Cell.MAX else Cell.MIN)) q := by
          intro hb; exact hneg ⟨hb.1, hb.2.2.1⟩
        have hnot2 : ¬ BlkG b.height b.width b.tiles q := by
          intro hb; exact hneg ⟨hb.1, hb.2.2.1⟩
        simp [hnot1, hnot2]
  rw [hfil]
  unfold newlyBlocked
  ring

end PlaceLemmas

section Reachability

/-- Number of cells with value `c` in a grid. -/
def countCell (g : Grid) (c : Cell) : Nat :=
  (g.map (fun row => row.countP (fun x => x == c))).sum

/-- The board states reachable from `create` by successful `place` calls. -/
inductive Reachable : Board → Prop where
  | created : ∀ (w h : Int) (b : Board), create w h = some b → Reachable b
  | step : ∀ (b : Board) (row col : Int) (b' : Board),
      Reachable b → place b row col = some b' → Reachable b'

/-- Rectangular grid in index form: every row read by index has length `w`. -/
def RectIx (g : Grid) (w : Nat) : Prop :=
  ∀ k : Nat, k < g.length → (g.getD k []).length = w

theorem getD_eq_getElem {α : Type} (l : List α) (n : Nat) (d : α)
    (h : n < l.length) : l.getD n d = l[n] := by
  induction l generalizing n with
  | nil => simp at h
  | cons a t ih =>
    cases n with
    | zero => simp
    | succ m => simpa using ih m (by simpa using h)

theorem rectIx_mem {g : Grid} {w : Nat} (h : RectIx g w) :
    ∀ row ∈ g, row.length = w := by
  intro row hrow
  obtain ⟨i, hi, hval⟩ := List.mem_iff_getElem.mp hrow
  rw [← hval, ← getD_eq_getElem g i [] hi]
  exact h i hi

theorem sum_lengths {g : Grid} {w : Nat} (h : ∀ row ∈ g, row.length = w) :
    (g.map List.length).sum = g.length * w := by
  induction g with
  | nil => simp
  | cons a t ih =>
    simp only [List.map_cons, List.sum_cons, List.length_cons]
    rw [h a (List.mem_cons_self a t), ih (fun r hr => h r (List.mem_cons_of_mem a hr))]
    ring

theorem row_count_total (row : List Cell) :
    row.countP (fun x => x == Cell.OPEN) + row.countP (fun x => x == Cell.BLOCKED) +
      row.countP (fun x => x == Cell.MAX) + row.countP (fun x => x == Cell.MIN) =
      row.length := by
  induction row with
  | nil => simp
  | cons a t ih =>
    simp only [List.countP_cons, List.length_cons]
    cases a <;> simp <;> omega

theorem countCell_total (g : Grid) :
    countCell g Cell.OPEN + countCell g Cell.BLOCKED +
      countCell g Cell.MAX + countCell g Cell.MIN = (g.map List.length).sum := by
  induction g with
  | nil => simp [countCell]
  | cons a t ih =>
    simp only [countCell, List.map_cons, List.sum_cons] at ih ⊢
    have := row_count_total a
    omega

theorem countOpen_eq_countCell (g : Grid) : countOpen g = countCell g Cell.OPEN := rfl

/-- Elimination form for a successful `create`. -/
theorem create_eq_some {w h : Int} {b : Board} (h0 : create w h = some b) :
    1 ≤ w ∧ 1 ≤ h ∧
    b.tiles = List.replicate h.toNat (List.replicate w.toNat Cell.OPEN) ∧
    b.open_cnt = w * h ∧ b.MAX_turn = true ∧ b.action = none := by
  unfold create at h0
  by_cases hg : w < 1 ∨ h < 1
  · rw [if_pos hg] at h0; cases h0
  · rw [if_neg hg] at h0
    push_neg at hg
    have hb := (Option.some.inj h0).symm
    subst hb
    exact ⟨hg.1, hg.2, rfl, rfl, rfl, rfl⟩

theorem create_dims {w h : Int} {b : Board} (h0 : create w h = some b) :
    b.height = h.toNat ∧ b.width = w.toNat := by
  obtain ⟨hw, hh, htiles, _, _, _⟩ := create_eq_some h0
  constructor
  · unfold Board.height; rw [htiles]; simp
  · unfold Board.width
    rw [htiles, headD_eq_getD_zero, getD_eq_getElem _ _ _ (by simp; omega)]
    simp

/-- The structural invariant of every reachable board: a rectangular grid of
positive dimensions whose stored `open_cnt` equals the actual number of
`OPEN` squares. -/
theorem reachable_invariant {b : Board} (h : Reachable b) :
    RectIx b.tiles b.width ∧ b.open_cnt = (countOpen b.tiles : Int) ∧
      1 ≤ b.height ∧ 1 ≤ b.width := by
  induction h with
  | created w h0 b hc =>
    obtain ⟨hw, hh, htiles, hcnt, _, _⟩ := create_eq_some hc
    obtain ⟨hht, hwd⟩ := create_dims hc
    refine ⟨?_, ?_, ?_, ?_⟩
    · intro k hk
      rw [htiles] at hk ⊢
      simp at hk
      rw [getD_eq_getElem _ _ _ (by simpa using hk)]
      simp [hwd]
    · rw [hcnt, htiles]
      unfold countOpen
      simp only [List.map_replicate, List.sum_replicate, smul_eq_mul]
      rw [List.countP_eq_length.mpr (by intro a ha; simp at ha; simp [ha]),
        List.length_replicate, Nat.cast_mul,
        Int.toNat_of_nonneg (by omega : (0:Int) ≤ h0),
        Int.toNat_of_nonneg (by omega : (0:Int) ≤ w)]
      ring
    · rw [hht]; omega
    · rw [hwd]; omega
  | step b row col b' hb hp ih =>
    obtain ⟨hrect, hcnt, hh, hw⟩ := ih
    obtain ⟨hlen, hrl⟩ := place_dims hp
    obtain ⟨hht, hwd⟩ := place_height_width hp
    refine ⟨?_, ?_, ?_, ?_⟩
    · intro k hk
      rw [hrl k, hwd]
      exact hrect k (by rw [← hlen]; exact hk)
    · have := place_sync hp
      omega
    · rw [hht]; exact hh
    · rw [hwd]; exact hw

end Reachability

/-- The 2x2 all-open starting board, `create(2, 2)`. -/
def bTwo : Board :=
  { tiles := [[Cell.OPEN, Cell.OPEN], [Cell.OPEN, Cell.OPEN]]
    open_cnt := 4, MAX_turn := true, action := none }

/-- The result of `place(0, 0)` on `bTwo`: all other squares blocked. -/
def bTwoAfter : Board :=
  { tiles := [[Cell.MAX, Cell.BLOCKED], [Cell.BLOCKED, Cell.BLOCKED]]
    open_cnt := 0, MAX_turn := false, action := some (0, 0) }

/-- A 1x1 board with its single square open. -/
def bOne : Board :=
  { tiles := [[Cell.OPEN]], open_cnt := 1, MAX_turn := true, action := none }

theorem bmFuel_succ (f : Nat) (b : Board) (nd : NodeData) :
    bmFuel (f + 1) b nd =
      if nd.depth ≠ 0 ∧ b.done = false then
        (GTree.mk b
          (some (((allMoves b).foldl (stepMoveF (bmFuel f) b) (initAcc b nd)).util))
          (((allMoves b).foldl (stepMoveF (bmFuel f) b) (initAcc b nd)).chosen)
          (((allMoves b).foldl (stepMoveF (bmFuel f) b) (initAcc b nd)).children),
         1 + ((allMoves b).foldl (stepMoveF (bmFuel f) b) (initAcc b nd)).expanded)
      else (GTree.mk b none none [], 1) := rfl

theorem bmFuel_leaf {f : Nat} {b : Board} {nd : NodeData}
    (h : nd.depth = 0 ∨ b.done = true) :
    bmFuel f b nd = (GTree.mk b none none [], 1) := by
  cases f with
  | zero => rfl
  | succ f =>
    rw [bmFuel_succ, if_neg]
    intro hcond
    rcases h with h | h
    · exact hcond.1 h
    · rw [hcond.2] at h; cases h

theorem euInt_inj {a b : Int} : euInt a = euInt b ↔ a = b := by
  unfold euInt
  constructor
  · intro h
    exact WithTop.coe_inj.mp (WithBot.coe_inj.mp h)
  · intro h; rw [h]

/-- C8: `create(width, height)` returns a failure value iff `width < 1` or
`height < 1`; otherwise it returns a state in which every cell is Open,
`openCount = width * height`, the first player moves, and there is no
originating move. -/
theorem claim_c8_create (w h : Int) :
    (create w h = none ↔ w < 1 ∨ h < 1) ∧
    (∀ b : Board, create w h = some b →
      (∀ row ∈ b.tiles, ∀ c ∈ row, c = Cell.OPEN) ∧
      b.open_cnt = w * h ∧ b.MAX_turn = true ∧ b.action = none) := by
  constructor
  · unfold create
    by_cases hg : w < 1 ∨ h < 1
    · rw [if_pos hg]; simpa using hg
    · rw [if_neg hg]; simpa using hg
  · intro b hb
    obtain ⟨_, _, htiles, hcnt, hmt, hact⟩ := create_eq_some hb
    refine ⟨?_, hcnt, hmt, hact⟩
    intro row hrow c hc
    rw [htiles] at hrow
    rw [List.eq_of_mem_replicate hrow] at hc
    exact List.eq_of_mem_replicate hc

/-- Witness for C8 at concrete inputs: `create(0, 5)` fails, and
`create(2, 2)` yields the all-open 2x2 board with the stated fields. -/
theorem claim_c8_create_witness :
    (create 0 5 = none ↔ (0 : Int) < 1 ∨ (5 : Int) < 1) ∧
    ((∀ row ∈ bTwo.tiles, ∀ c ∈ row, c = Cell.OPEN) ∧
      bTwo.open_cnt = 2 * 2 ∧ bTwo.MAX_turn = true ∧ bTwo.action = none) :=
  ⟨(claim_c8_create 0 5).1, (claim_c8_create 2 2).2 bTwo (by decide)⟩

/-- C5: a non-terminal state evaluated at a depth cutoff scores `openCount`
(sign chosen by the mover), except that `openCount == 1` scores
`width * height + 1`; in particular such a cutoff leaf never evaluates to
magnitude 1. -/
theorem claim_c5_evaluator (b : Board) (nd : NodeData) (f : Nat)
    (h1 : b.done = false) (h2 : nd.depth = 0) :
    treeUtil (bmFuel f b nd).1 =
      euInt ((if b.MAX_turn then 1 else -1) *
        (if b.open_cnt = 1 then (b.width : Int) * (b.height : Int) + 1
         else b.open_cnt)) ∧
    (b.open_cnt = 1 → 1 ≤ (b.width : Int) * (b.height : Int) →
      treeUtil (bmFuel f b nd).1 ≠ euInt 1 ∧
        treeUtil (bmFuel f b nd).1 ≠ euInt (-1)) := by
  have hleaf := @bmFuel_leaf f b nd (Or.inl h2)
  rw [hleaf]
  have hform : treeUtil (GTree.mk b none none [], 1).1 = euInt (evaluateNode b) := by
    unfold treeUtil GTree.utilAnn GTree.board utilityOf
    rw [if_neg (by rw [h1]; simp)]
    rfl
  rw [hform]
  constructor
  · rw [euInt_inj]
    unfold evaluateNode
    cases hb : b.MAX_turn <;> simp <;> split_ifs <;> ring
  · intro hcnt hwh
    have hval : evaluateNode b = (b.width : Int) * (b.height : Int) + 1 ∨
        evaluateNode b = -((b.width : Int) * (b.height : Int) + 1) := by
      unfold evaluateNode
      rw [if_pos hcnt]
      cases b.MAX_turn <;> simp
    constructor <;> rw [Ne, euInt_inj] <;>
      rcases hval with hval | hval <;> rw [hval] <;> intro heq <;> linarith

/-- Witness for C5: a 1x1 cutoff leaf with one open square evaluates to the
sentinel magnitude `1*1 + 1 = 2`, not 1. -/
theorem claim_c5_evaluator_witness :
    (bOne.done = false ∧ (NodeData.mm 0).depth = 0) ∧
    (treeUtil (bmFuel 1 bOne (.mm 0)).1 =
      euInt ((if bOne.MAX_turn then 1 else -1) *
        (if bOne.open_cnt = 1 then (bOne.width : Int) * (bOne.height : Int) + 1
         else bOne.open_cnt)) ∧
    (bOne.open_cnt = 1 → 1 ≤ (bOne.width : Int) * (bOne.height : Int) →
      treeUtil (bmFuel 1 bOne (.mm 0)).1 ≠ euInt 1 ∧
        treeUtil (bmFuel 1 bOne (.mm 0)).1 ≠ euInt (-1))) :=
  ⟨⟨by decide, by decide⟩, claim_c5_evaluator bOne (.mm 0) 1 (by decide) (by decide)⟩

/-- C7: `place(row, col)` returns a failure value (not an exception) exactly
for an out-of-range coordinate or a non-open target square; consequently
`place(r, c)` applied to the result of a successful `place(r, c)` always
fails. -/
theorem claim_c7_place_failure (b : Board) (row col : Int) :
    (place b row col = none ↔
      ¬ (0 ≤ row ∧ row < (b.height : Int)) ∨
      ¬ (0 ≤ col ∧ col < (b.width : Int)) ∨
      cellD b.tiles row col ≠ Cell.OPEN) ∧
    (∀ b', place b row col = some b' → place b' row col = none) := by
  refine ⟨place_eq_none_iff b row col, ?_⟩
  intro b' hb'
  have hcen := place_cell_center hb'
  apply (place_eq_none_iff b' row col).mpr
  right; right
  rw [hcen]
  exact mark_ne_open b.MAX_turn

/-- Witness for C7 on the 2x2 board: the failure condition at `(0, 0)` and
the failure of replaying `(0, 0)` after it succeeded. -/
theorem claim_c7_place_failure_witness :
    ((place bTwo 0 0 = none ↔
      ¬ ((0:Int) ≤ 0 ∧ (0:Int) < (bTwo.height : Int)) ∨
      ¬ ((0:Int) ≤ 0 ∧ (0:Int) < (bTwo.width : Int)) ∨
      cellD bTwo.tiles 0 0 ≠ Cell.OPEN) ∧
    place bTwoAfter 0 0 = none) :=
  ⟨(claim_c7_place_failure bTwo 0 0).1,
   (claim_c7_place_failure bTwo 0 0).2 bTwoAfter (by decide)⟩

/-- C3: placing on an in-range open square succeeds; the result marks the
target for the current mover, blocks every previously open square of the
clipped 3x3 neighbourhood, leaves everything else unchanged, decrements
`openCount` by one for the mark plus one per newly blocked square, flips
the mover and records the originating move. -/
theorem claim_c3_place_success (b : Board) (row col : Int)
    (hr : 0 ≤ row ∧ row < (b.height : Int))
    (hc : 0 ≤ col ∧ col < (b.width : Int))
    (hopen : cellD b.tiles row col = Cell.OPEN) :
    ∃ b', place b row col = some b' ∧
      cellD b'.tiles row col = (if b.MAX_turn then Cell.MAX else Cell.MIN) ∧
      (∀ q ∈ nbhd row col, q ≠ (row, col) → inR b.height b.width q →
        cellD b.tiles q.1 q.2 = Cell.OPEN →
        cellD b'.tiles q.1 q.2 = Cell.BLOCKED) ∧
      (∀ q : Int × Int, 0 ≤ q.1 → 0 ≤ q.2 → q ∉ nbhd row col →
        cellD b'.tiles q.1 q.2 = cellD b.tiles q.1 q.2) ∧
      b'.open_cnt = b.open_cnt - 1 - (newlyBlocked b row col : Int) ∧
      b'.MAX_turn = (!b.MAX_turn) ∧ b'.action = some (row, col) := by
  have hnn : place b row col ≠ none := by
    intro hnone
    rw [place_eq_none_iff] at hnone
    rcases hnone with h | h | h
    · exact h hr
    · exact h hc
    · exact h hopen
  obtain ⟨b', hb'⟩ := Option.ne_none_iff_exists'.mp hnn
  refine ⟨b', hb', place_cell_center hb', ?_, ?_,
    place_open_cnt hb', (place_eq_some hb').2.2.2.2.2⟩
  · intro q hq hne hin hqopen
    rw [place_cell_nbhd hb' hq hne hin, if_pos hqopen]
  · intro q h1 h2 hq
    exact place_cell_far hb' h1 h2 hq

/-- Witness for C3: placing at `(0, 0)` on the 2x2 all-open board. -/
theorem claim_c3_place_success_witness :
    ((0:Int) ≤ 0 ∧ (0:Int) < (bTwo.height : Int)) ∧
    ((0:Int) ≤ 0 ∧ (0:Int) < (bTwo.width : Int)) ∧
    cellD bTwo.tiles 0 0 = Cell.OPEN ∧
    (∃ b', place bTwo 0 0 = some b' ∧
      cellD b'.tiles 0 0 = (if bTwo.MAX_turn then Cell.MAX else Cell.MIN) ∧
      (∀ q ∈ nbhd 0 0, q ≠ (0, 0) → inR bTwo.height bTwo.width q →
        cellD bTwo.tiles q.1 q.2 = Cell.OPEN →
        cellD b'.tiles q.1 q.2 = Cell.BLOCKED) ∧
      (∀ q : Int × Int, 0 ≤ q.1 → 0 ≤ q.2 → q ∉ nbhd 0 0 →
        cellD b'.tiles q.1 q.2 = cellD bTwo.tiles q.1 q.2) ∧
      b'.open_cnt = bTwo.open_cnt - 1 - (newlyBlocked bTwo 0 0 : Int) ∧
      b'.MAX_turn = (!bTwo.MAX_turn) ∧ b'.action = some (0, 0)) :=
  ⟨by decide, by decide, by decide,
   claim_c3_place_success bTwo 0 0 (by decide) (by decide) (by decide)⟩

/-- C4: on every reachable board the four cell-state counts sum to
`width * height` and the stored `openCount` equals the number of open
squares. -/
theorem claim_c4_invariant {b : Board} (h : Reachable b) :
    countCell b.tiles Cell.OPEN + countCell b.tiles Cell.BLOCKED +
      countCell b.tiles Cell.MAX + countCell b.tiles Cell.MIN =
      b.width * b.height ∧
    b.open_cnt = (countOpen b.tiles : Int) := by
  obtain ⟨hrect, hcnt, _, _⟩ := reachable_invariant h
  refine ⟨?_, hcnt⟩
  rw [countCell_total, sum_lengths (rectIx_mem hrect)]
  unfold Board.height
  ring

/-- Witness for C4 at the board created by `create(2, 2)`. -/
theorem claim_c4_invariant_witness :
    countCell bTwo.tiles Cell.OPEN + countCell bTwo.tiles Cell.BLOCKED +
      countCell bTwo.tiles Cell.MAX + countCell bTwo.tiles Cell.MIN =
      bTwo.width * bTwo.height ∧
    bTwo.open_cnt = (countOpen bTwo.tiles : Int) :=
  claim_c4_invariant (Reachable.created 2 2 bTwo (by decide))

section HeapModel

/-- A heap of Python row objects (`list` values), with an allocation
counter: `place` copies each row (`list(old_row)`) before mutating, so its
writes land only on freshly allocated rows. -/
structure RowStore where
  rows : Nat → List Cell
  next : Nat

/-- A board object holding references to its row objects, together with the
scalar fields of `ObstructionBoard` (including the mutable `_utility` and
`chosen_child` slots, which `place` never writes). -/
structure BoardRef where
  tiles : List Nat
  open_cnt : Int
  MAX_turn : Bool
  action : Option (Int × Int)
  utilityF : Option EU
  chosenF : Option Nat

/-- Mutate one row object in the heap. -/
def writeRow (s : RowStore) (id : Nat) (r : List Cell) : RowStore :=
  { rows := fun k => if k = id then r else s.rows k, next := s.next }

/-- The grid a board object denotes: its rows read from the heap. -/
def readGridRef (s : RowStore) (b : BoardRef) : Grid := b.tiles.map s.rows

/-- Everything observable about a board object: grid contents plus every
scalar field. -/
def readBoardRef (s : RowStore) (b : BoardRef) :
    Grid × Int × Bool × Option (Int × Int) × Option EU × Option Nat :=
  (readGridRef s b, b.open_cnt, b.MAX_turn, b.action, b.utilityF, b.chosenF)

/-- One blocking-loop step of `place`, on the heap: reads and writes the
freshly allocated rows `base + i`. -/
def blockStepRef (base h w : Nat) (p : RowStore × Int) (m : Int × Int) :
    RowStore × Int :=
  if 0 ≤ m.1 ∧ m.1 < (h : Int) ∧ 0 ≤ m.2 ∧ m.2 < (w : Int) ∧
      ((p.1.rows (base + m.1.toNat)).getD m.2.toNat Cell.BLOCKED) = Cell.OPEN then
    (writeRow p.1 (base + m.1.toNat)
      ((p.1.rows (base + m.1.toNat)).set m.2.toNat Cell.BLOCKED), p.2 - 1)
  else p

/-- The heap after allocating fresh copies of all of `b`'s rows
(`new_squares = [list(old_row) for old_row in self._tiles]`). -/
def allocCopies (s : RowStore) (b : BoardRef) : RowStore :=
  { rows := fun k => if s.next ≤ k ∧ k < s.next + b.tiles.length
                     then s.rows (b.tiles.getD (k - s.next) 0)
                     else s.rows k
    next := s.next + b.tiles.length }

/-- The heap after additionally marking the target square on the copy. -/
def markCopy (s : RowStore) (b : BoardRef) (row col : Int) : RowStore :=
  writeRow (allocCopies s b) (s.next + row.toNat)
    (((allocCopies s b).rows (s.next + row.toNat)).set col.toNat
      (if b.MAX_turn then Cell.MAX else Cell.MIN))

/-- `ObstructionBoard.place` on the heap model: guard on the receiver's
rows, shallow-copy every row into fresh heap cells, then mark and block on
the copies only, returning the updated heap plus the new board object. -/
def placeRef (s : RowStore) (b : BoardRef) (row col : Int) :
    RowStore × Option BoardRef :=
  if ¬ (0 ≤ row ∧ row < (b.tiles.length : Int)) ∨
      ¬ (0 ≤ col ∧ col < (((s.rows (b.tiles.headD 0)).length : Nat) : Int)) ∨
      ((s.rows (b.tiles.getD row.toNat 0)).getD col.toNat Cell.BLOCKED) ≠ Cell.OPEN then
    (s, none)
  else
    (((nbhd row col).foldl
        (blockStepRef s.next b.tiles.length (s.rows (b.tiles.headD 0)).length)
        (markCopy s b row col, b.open_cnt - 1)).1,
     some { tiles := (List.range b.tiles.length).map (fun i => s.next + i)
            open_cnt := ((nbhd row col).foldl
              (blockStepRef s.next b.tiles.length (s.rows (b.tiles.headD 0)).length)
              (markCopy s b row col, b.open_cnt - 1)).2
            MAX_turn := !b.MAX_turn
            action := some (row, col)
            utilityF := none
            chosenF := none })

theorem blockFoldRef_frame (base h w : Nat) (ps : List (Int × Int)) :
    ∀ (p : RowStore × Int) (k : Nat), k < base →
      ((ps.foldl (blockStepRef base h w) p).1).rows k = p.1.rows k := by
  induction ps with
  | nil => intro p k hk; rfl
  | cons q rest ih =>
    intro p k hk
    simp only [List.foldl_cons]
    rw [ih _ k hk]
    unfold blockStepRef
    split
    · unfold writeRow
      simp only
      rw [if_neg (by omega)]
    · rfl

/-- C9: calling `place` leaves the receiving state unmodified — its grid
contents and all its fields (`openCount`, `nextMover`, `originatingMove`,
`utility`, `chosenSuccessor`) read the same after the call as before,
whether the call succeeds or fails: every mutation targets freshly
allocated row copies. -/
theorem claim_c9_place_frame (s : RowStore) (b : BoardRef) (row col : Int)
    (hvalid : ∀ id ∈ b.tiles, id < s.next) :
    readBoardRef (placeRef s b row col).1 b = readBoardRef s b := by
  unfold placeRef
  by_cases hg : (¬ (0 ≤ row ∧ row < (b.tiles.length : Int)) ∨
      ¬ (0 ≤ col ∧ col < (((s.rows (b.tiles.headD 0)).length : Nat) : Int)) ∨
      ((s.rows (b.tiles.getD row.toNat 0)).getD col.toNat Cell.BLOCKED) ≠ Cell.OPEN)
  · rw [if_pos hg]
  · rw [if_neg hg]
    unfold readBoardRef readGridRef
    simp only [Prod.mk.injEq, and_true]
    apply List.map_congr_left
    intro id hid
    have hlt : id < s.next := hvalid id hid
    rw [blockFoldRef_frame s.next b.tiles.length
      ((s.rows (b.tiles.headD 0)).length) (nbhd row col) _ id hlt]
    unfold markCopy writeRow allocCopies
    simp only
    rw [if_neg (by omega), if_neg (by omega)]

/-- One-row heap and a board object referencing it, for the C9 witness. -/
def storeOne : RowStore := { rows := fun _ => [Cell.OPEN], next := 1 }

/-- The board object living in `storeOne`. -/
def refOne : BoardRef :=
  { tiles := [0], open_cnt := 1, MAX_turn := true, action := none,
    utilityF := none, chosenF := none }

/-- Witness for C9: the concrete one-square board object is observably
unchanged by `place(0, 0)`. -/
theorem claim_c9_place_frame_witness :
    (∀ id ∈ refOne.tiles, id < storeOne.next) ∧
    readBoardRef (placeRef storeOne refOne 0 0).1 refOne =
      readBoardRef storeOne refOne :=
  ⟨by decide, claim_c9_place_frame storeOne refOne 0 0 (by decide)⟩

end HeapModel

section EUHelpers

theorem pmax_eq_max (a b : EU) : pmax a b = max a b := by
  unfold pmax
  rcases lt_trichotomy a b with h | h | h
  · rw [if_pos h, max_eq_right h.le]
  · rw [h, if_neg (lt_irrefl b), max_self]
  · rw [if_neg (not_lt.mpr h.le), max_eq_left h.le]

theorem pmin_eq_min (a b : EU) : pmin a b = min a b := by
  unfold pmin
  rcases lt_trichotomy b a with h | h | h
  · rw [if_pos h, min_eq_right h.le]
  · rw [h, if_neg (lt_irrefl a), min_self]
  · rw [if_neg (not_lt.mpr h.le), min_eq_left h.le]

theorem negInf_bot : negInf = (⊥ : EU) := rfl

theorem posInf_top : posInf = (⊤ : EU) := rfl

theorem botEU_lt_top : (⊥ : EU) < (⊤ : EU) := by decide

end EUHelpers

section StepLemmas

theorem stepMoveF_stopped (recf : Board → NodeData → GTree × Nat) (b : Board)
    (acc : LoopAcc) (m : Int × Int) (h : acc.stopped = true) :
    stepMoveF recf b acc m = acc := by
  unfold stepMoveF
  rw [if_pos h]

theorem stepMoveF_illegal (recf : Board → NodeData → GTree × Nat) (b : Board)
    (acc : LoopAcc) (m : Int × Int) (hs : acc.stopped = false)
    (hp : place b m.1 m.2 = none) :
    stepMoveF recf b acc m = acc := by
  unfold stepMoveF
  rw [if_neg (by rw [hs]; exact Bool.false_ne_true), hp]

theorem stepMoveF_legal (recf : Board → NodeData → GTree × Nat) (b : Board)
    (acc : LoopAcc) (m : Int × Int) (nb : Board) (hs : acc.stopped = false)
    (hp : place b m.1 m.2 = some nb) :
    stepMoveF recf b acc m = stepBody recf b acc nb := by
  unfold stepMoveF
  rw [if_neg (by rw [hs]; exact Bool.false_ne_true), hp]

theorem stepBody_skip (recf : Board → NodeData → GTree × Nat) (b : Board)
    (acc : LoopAcc) (nb : Board)
    (h1 : tempOf recf b acc nb = acc.util) (h2 : acc.chosen ≠ none) :
    stepBody recf b acc nb = pushAcc recf b acc nb := by
  unfold stepBody
  rw [if_neg]
  intro hor
  rcases hor with hor | hor
  · exact hor h1
  · exact h2 hor

theorem stepBody_rec_noprune (recf : Board → NodeData → GTree × Nat)
    (b : Board) (acc : LoopAcc) (nb : Board)
    (h1 : tempOf recf b acc nb ≠ acc.util ∨ acc.chosen = none)
    (h2 : (ndOf recf b acc nb).prune = false) :
    stepBody recf b acc nb =
      { pushAcc recf b acc nb with
          util := tempOf recf b acc nb, chosen := some nb,
          nd := ndOf recf b acc nb } := by
  unfold stepBody
  rw [if_pos h1, if_neg (by rw [h2]; exact Bool.false_ne_true)]

theorem stepBody_rec_prune (recf : Board → NodeData → GTree × Nat)
    (b : Board) (acc : LoopAcc) (nb : Board)
    (h1 : tempOf recf b acc nb ≠ acc.util ∨ acc.chosen = none)
    (h2 : (ndOf recf b acc nb).prune = true) :
    stepBody recf b acc nb =
      { pushAcc recf b acc nb with
          util := tempOf recf b acc nb,
          chosen := if tempOf recf b acc nb = posInf ∨
                      tempOf recf b acc nb = negInf
                    then some nb else none,
          nd := ndOf recf b acc nb, stopped := true } := by
  unfold stepBody
  rw [if_pos h1, if_pos h2]

/-- Once the loop has broken out, the remaining iterations do nothing. -/
theorem loop_absorb (recf : Board → NodeData → GTree × Nat) (b : Board)
    (ms : List (Int × Int)) :
    ∀ acc : LoopAcc, acc.stopped = true →
      ms.foldl (stepMoveF recf b) acc = acc := by
  induction ms with
  | nil => intro acc h; rfl
  | cons m rest ih =>
    intro acc h
    simp only [List.foldl_cons, stepMoveF_stopped recf b acc m h]
    exact ih acc h

theorem legalSucc_cons_none {b : Board} {m : Int × Int}
    (ms : List (Int × Int)) (hp : place b m.1 m.2 = none) :
    legalSucc b (m :: ms) = legalSucc b ms := by
  unfold legalSucc
  rw [List.filterMap_cons, hp]

theorem legalSucc_cons_some {b : Board} {m : Int × Int} {nb : Board}
    (ms : List (Int × Int)) (hp : place b m.1 m.2 = some nb) :
    legalSucc b (m :: ms) = nb :: legalSucc b ms := by
  unfold legalSucc
  rw [List.filterMap_cons, hp]

theorem foldl_ext_mem {α β : Type} (g1 g2 : β → α → β) (l : List α) :
    ∀ x : β, (∀ u a, a ∈ l → g1 u a = g2 u a) →
      l.foldl g1 x = l.foldl g2 x := by
  induction l with
  | nil => intro x _; rfl
  | cons a t ih =>
    intro x h
    simp only [List.foldl_cons]
    rw [h x a (List.mem_cons_self a t)]
    exact ih _ (fun u c hc => h u c (List.mem_cons_of_mem a hc))

theorem tempOf_mm {f : Nat} {b : Board} {acc : LoopAcc} {nb : Board}
    {d : Int} (h : acc.nd = .mm d) :
    tempOf (bmFuel f) b acc nb =
      (if b.MAX_turn then pmax acc.util (treeUtil (bmFuel f nb (.mm (d - 1))).1)
       else pmin acc.util (treeUtil (bmFuel f nb (.mm (d - 1))).1)) := by
  unfold tempOf
  rw [h]
  rfl

theorem ndOf_mm {f : Nat} {b : Board} {acc : LoopAcc} {nb : Board}
    {d : Int} (h : acc.nd = .mm d) :
    ndOf (bmFuel f) b acc nb = .mm d := by
  unfold ndOf
  rw [h]
  cases b.MAX_turn <;> rfl

/-- Characterisation of the move loop under plain minimax data: nothing is
pruned, every legal successor is expanded into a child in order, the
expansion counts add up, the running utility is the fold of the children's
utilities, and the chosen child is set exactly when a legal move exists. -/
theorem mm_loop (f : Nat) (b : Board) (d : Int) (ms : List (Int × Int)) :
    ∀ acc : LoopAcc, acc.stopped = false → acc.nd = .mm d →
      (ms.foldl (stepMoveF (bmFuel f) b) acc).stopped = false ∧
      (ms.foldl (stepMoveF (bmFuel f) b) acc).nd = .mm d ∧
      (ms.foldl (stepMoveF (bmFuel f) b) acc).children = acc.children ++
        (legalSucc b ms).map (fun nb => (bmFuel f nb (.mm (d - 1))).1) ∧
      (ms.foldl (stepMoveF (bmFuel f) b) acc).expanded = acc.expanded +
        ((legalSucc b ms).map (fun nb => (bmFuel f nb (.mm (d - 1))).2)).sum ∧
      (ms.foldl (stepMoveF (bmFuel f) b) acc).util = (legalSucc b ms).foldl
        (fun u nb =>
          if b.MAX_turn then pmax u (treeUtil (bmFuel f nb (.mm (d - 1))).1)
          else pmin u (treeUtil (bmFuel f nb (.mm (d - 1))).1)) acc.util ∧
      ((ms.foldl (stepMoveF (bmFuel f) b) acc).chosen = none ↔
        (acc.chosen = none ∧ legalSucc b ms = [])) := by
  induction ms with
  | nil =>
    intro acc h1 h2
    simp [legalSucc, h1, h2]
  | cons m rest ih =>
    intro acc h1 h2
    cases hp : place b m.1 m.2 with
    | none =>
      rw [List.foldl_cons, stepMoveF_illegal _ _ _ _ h1 hp,
        legalSucc_cons_none rest hp]
      exact ih acc h1 h2
    | some nb =>
      rw [List.foldl_cons, stepMoveF_legal _ _ _ _ nb h1 hp,
        legalSucc_cons_some rest hp]
      by_cases hrec : (tempOf (bmFuel f) b acc nb ≠ acc.util ∨ acc.chosen = none)
      · rw [stepBody_rec_noprune _ _ _ _ hrec (by rw [ndOf_mm h2]; rfl),
          ndOf_mm h2]
        obtain ⟨i1, i2, i3, i4, i5, i6⟩ := ih
          { pushAcc (bmFuel f) b acc nb with
              util := tempOf (bmFuel f) b acc nb, chosen := some nb,
              nd := .mm d } h1 rfl
        refine ⟨i1, i2, ?_, ?_, ?_, ?_⟩
        · rw [i3]
          simp [pushAcc, h2, NodeData.child]
        · rw [i4]
          simp only [pushAcc, h2, NodeData.child, List.map_cons, List.sum_cons]
          omega
        · rw [i5]
          simp only [pushAcc, List.foldl_cons]
          rw [tempOf_mm h2]
        · rw [i6]
          simp
      · push_neg at hrec
        have htemp : tempOf (bmFuel f) b acc nb = acc.util := hrec.1
        rw [stepBody_skip _ _ _ _ htemp hrec.2]
        obtain ⟨i1, i2, i3, i4, i5, i6⟩ := ih (pushAcc (bmFuel f) b acc nb) h1 h2
        refine ⟨i1, i2, ?_, ?_, ?_, ?_⟩
        · rw [i3]
          simp [pushAcc, h2, NodeData.child]
        · rw [i4]
          simp only [pushAcc, h2, NodeData.child, List.map_cons, List.sum_cons]
          omega
        · rw [i5]
          simp only [pushAcc, List.foldl_cons]
          rw [← tempOf_mm h2, htemp]
        · rw [i6]
          simp [pushAcc, hrec.2]

end StepLemmas

section MMValue

theorem treeUtil_some (b : Board) (u : EU) (c : Option Board)
    (cs : List GTree) : treeUtil (GTree.mk b (some u) c cs) = u := rfl

theorem treeUtil_none (b : Board) (c : Option Board) (cs : List GTree) :
    treeUtil (GTree.mk b none c cs) = utilityOf b := rfl

theorem initAcc_util (b : Board) (nd : NodeData) :
    (initAcc b nd).util = if b.MAX_turn then negInf else posInf := rfl

theorem mmVal_succ (f : Nat) (b : Board) (d : Int) :
    mmVal (f + 1) b d =
      if d ≠ 0 ∧ b.done = false then
        (legalSucc b (allMoves b)).foldl
          (fun u nb =>
            if b.MAX_turn then pmax u (mmVal f nb (d - 1))
            else pmin u (mmVal f nb (d - 1)))
          (if b.MAX_turn then negInf else posInf)
      else utilityOf b := rfl

theorem not_expand_leaf {b : Board} {d : Int}
    (h : ¬ (d ≠ 0 ∧ b.done = false)) :
    d = 0 ∨ b.done = true := by
  by_cases hd : d = 0
  · exact Or.inl hd
  · right
    cases hdone : b.done
    · exact absurd ⟨hd, hdone⟩ h
    · rfl

/-- The root utility computed by plain minimax equals the reference value
`mmVal`. -/
theorem treeUtil_mm (f : Nat) : ∀ (b : Board) (d : Int),
    treeUtil (bmFuel f b (.mm d)).1 = mmVal f b d := by
  induction f with
  | zero => intro b d; rfl
  | succ f ih =>
    intro b d
    by_cases hcond : d ≠ 0 ∧ b.done = false
    · have hcond' : (NodeData.mm d).depth ≠ 0 ∧ b.done = false :=
        ⟨hcond.1, hcond.2⟩
      rw [bmFuel_succ, if_pos hcond']
      obtain ⟨_, _, _, _, i5, _⟩ :=
        mm_loop f b d (allMoves b) (initAcc b (.mm d)) rfl rfl
      rw [treeUtil_some, i5, mmVal_succ, if_pos hcond, initAcc_util]
      apply foldl_ext_mem
      intro u nb _
      rw [ih nb (d - 1)]
    · have h' : (NodeData.mm d).depth = 0 ∨ b.done = true := not_expand_leaf hcond
      rw [bmFuel_leaf h', mmVal_succ, if_neg hcond, treeUtil_none]

/-- Shape of an expanded plain-minimax node: all legal successors explored
in order, counts added up, and a chosen child exactly when a legal move
exists. -/
theorem mm_expand (f : Nat) (b : Board) (d : Int) (hd : d ≠ 0)
    (hdone : b.done = false) :
    (bmFuel (f + 1) b (.mm d)).1.children =
      (legalSucc b (allMoves b)).map (fun nb => (bmFuel f nb (.mm (d - 1))).1) ∧
    (bmFuel (f + 1) b (.mm d)).2 =
      1 + ((legalSucc b (allMoves b)).map
        (fun nb => (bmFuel f nb (.mm (d - 1))).2)).sum ∧
    ((bmFuel (f + 1) b (.mm d)).1.chosen = none ↔
      legalSucc b (allMoves b) = []) := by
  obtain ⟨_, _, i3, i4, _, i6⟩ :=
    mm_loop f b d (allMoves b) (initAcc b (.mm d)) rfl rfl
  have hcond' : (NodeData.mm d).depth ≠ 0 ∧ b.done = false := ⟨hd, hdone⟩
  rw [bmFuel_succ, if_pos hcond']
  refine ⟨?_, ?_, ?_⟩
  · simpa [GTree.children, initAcc] using i3
  · rw [i4]
    simp [initAcc]
  · simpa [GTree.chosen, initAcc] using i6

end MMValue

section OrderHelpers

theorem pmax_bot_left (x : EU) : pmax negInf x = x := by
  rw [pmax_eq_max, negInf_bot, max_eq_right bot_le]

theorem pmax_bot_right (x : EU) : pmax x negInf = x := by
  rw [pmax_eq_max, negInf_bot, max_eq_left bot_le]

theorem le_pmax_left (x y : EU) : x ≤ pmax x y := by
  rw [pmax_eq_max]; exact le_max_left x y

theorem le_pmax_right (x y : EU) : y ≤ pmax x y := by
  rw [pmax_eq_max]; exact le_max_right x y

theorem pmax_le_iff {x y z : EU} : pmax x y ≤ z ↔ x ≤ z ∧ y ≤ z := by
  rw [pmax_eq_max]; exact max_le_iff

theorem le_pmax_iff {x y z : EU} : z ≤ pmax x y ↔ z ≤ x ∨ z ≤ y := by
  rw [pmax_eq_max]; exact le_max_iff

theorem pmax_lt_iff {x y z : EU} : pmax x y < z ↔ x < z ∧ y < z := by
  rw [pmax_eq_max]; exact max_lt_iff

theorem pmax_choice (x y : EU) : pmax x y = x ∨ pmax x y = y := by
  rw [pmax_eq_max]; exact (max_choice x y).imp id id

theorem pmax_eq_left {x y : EU} (h : y ≤ x) : pmax x y = x := by
  rw [pmax_eq_max]; exact max_eq_left h

theorem pmax_eq_right {x y : EU} (h : x ≤ y) : pmax x y = y := by
  rw [pmax_eq_max]; exact max_eq_right h

theorem pmax_mono {x y x' y' : EU} (h1 : x ≤ x') (h2 : y ≤ y') :
    pmax x y ≤ pmax x' y' := by
  rw [pmax_eq_max, pmax_eq_max]; exact max_le_max h1 h2

theorem pmax_absorb (a c u : EU) :
    pmax (pmax a c) (pmax c u) = pmax a (pmax c u) := by
  simp only [pmax_eq_max]
  rw [max_assoc a c (max c u), ← max_assoc c c u, max_self]

theorem pmin_top_left (x : EU) : pmin posInf x = x := by
  rw [pmin_eq_min, posInf_top, min_eq_right le_top]

theorem pmin_top_right (x : EU) : pmin x posInf = x := by
  rw [pmin_eq_min, posInf_top, min_eq_left le_top]

theorem pmin_le_left (x y : EU) : pmin x y ≤ x := by
  rw [pmin_eq_min]; exact min_le_left x y

theorem pmin_le_right (x y : EU) : pmin x y ≤ y := by
  rw [pmin_eq_min]; exact min_le_right x y

theorem le_pmin_iff {x y z : EU} : z ≤ pmin x y ↔ z ≤ x ∧ z ≤ y := by
  rw [pmin_eq_min]; exact le_min_iff

theorem pmin_le_iff {x y z : EU} : pmin x y ≤ z ↔ x ≤ z ∨ y ≤ z := by
  rw [pmin_eq_min]; exact min_le_iff

theorem lt_pmin_iff {x y z : EU} : z < pmin x y ↔ z < x ∧ z < y := by
  rw [pmin_eq_min]; exact lt_min_iff

theorem pmin_choice (x y : EU) : pmin x y = x ∨ pmin x y = y := by
  rw [pmin_eq_min]; exact (min_choice x y).imp id id

theorem pmin_eq_left {x y : EU} (h : x ≤ y) : pmin x y = x := by
  rw [pmin_eq_min]; exact min_eq_left h

theorem pmin_eq_right {x y : EU} (h : y ≤ x) : pmin x y = y := by
  rw [pmin_eq_min]; exact min_eq_right h

theorem pmin_mono {x y x' y' : EU} (h1 : x ≤ x') (h2 : y ≤ y') :
    pmin x y ≤ pmin x' y' := by
  rw [pmin_eq_min, pmin_eq_min]; exact min_le_min h1 h2

theorem pmin_absorb (a c u : EU) :
    pmin (pmin a c) (pmin c u) = pmin a (pmin c u) := by
  simp only [pmin_eq_min]
  rw [min_assoc a c (min c u), ← min_assoc c c u, min_self]

theorem foldl_pmax_extract (c : Board → EU) (bs : List Board) :
    ∀ x : EU, bs.foldl (fun u nb => pmax u (c nb)) x =
      pmax x (bs.foldl (fun u nb => pmax u (c nb)) negInf) := by
  induction bs with
  | nil => intro x; rw [List.foldl_nil, List.foldl_nil, pmax_bot_right]
  | cons nb rest ih =>
    intro x
    rw [List.foldl_cons, List.foldl_cons, ih (pmax x (c nb)),
      ih (pmax negInf (c nb)), pmax_bot_left]
    simp only [pmax_eq_max]
    rw [max_assoc]

theorem foldl_pmax_mono (c : Board → EU) (bs : List Board) {x y : EU}
    (h : x ≤ y) :
    bs.foldl (fun u nb => pmax u (c nb)) x ≤
      bs.foldl (fun u nb => pmax u (c nb)) y := by
  rw [foldl_pmax_extract c bs x, foldl_pmax_extract c bs y]
  exact pmax_mono h le_rfl

theorem le_foldl_pmax (c : Board → EU) (bs : List Board) (x : EU) :
    x ≤ bs.foldl (fun u nb => pmax u (c nb)) x := by
  rw [foldl_pmax_extract]
  exact le_pmax_left x _

theorem foldl_pmin_extract (c : Board → EU) (bs : List Board) :
    ∀ x : EU, bs.foldl (fun u nb => pmin u (c nb)) x =
      pmin x (bs.foldl (fun u nb => pmin u (c nb)) posInf) := by
  induction bs with
  | nil => intro x; rw [List.foldl_nil, List.foldl_nil, pmin_top_right]
  | cons nb rest ih =>
    intro x
    rw [List.foldl_cons, List.foldl_cons, ih (pmin x (c nb)),
      ih (pmin posInf (c nb)), pmin_top_left]
    simp only [pmin_eq_min]
    rw [min_assoc]

theorem foldl_pmin_mono (c : Board → EU) (bs : List Board) {x y : EU}
    (h : x ≤ y) :
    bs.foldl (fun u nb => pmin u (c nb)) x ≤
      bs.foldl (fun u nb => pmin u (c nb)) y := by
  rw [foldl_pmin_extract c bs x, foldl_pmin_extract c bs y]
  exact pmin_mono h le_rfl

theorem foldl_pmin_le (c : Board → EU) (bs : List Board) (x : EU) :
    bs.foldl (fun u nb => pmin u (c nb)) x ≤ x := by
  rw [foldl_pmin_extract]
  exact pmin_le_left x _

end OrderHelpers

section ABBounds

theorem pmax_eq_left_iff {x y : EU} : pmax x y = x ↔ y ≤ x := by
  rw [pmax_eq_max]; exact max_eq_left_iff

theorem pmin_eq_left_iff {x y : EU} : pmin x y = x ↔ x ≤ y := by
  rw [pmin_eq_min]; exact min_eq_left_iff

theorem tempOf_ab_max {f : Nat} {b : Board} {acc : LoopAcc} {nb : Board}
    {d : Int} {a beta : EU} (h : acc.nd = .ab d a beta)
    (hbt : b.MAX_turn = true) :
    tempOf (bmFuel f) b acc nb =
      pmax acc.util (treeUtil (bmFuel f nb (.ab (d - 1) a beta)).1) := by
  unfold tempOf
  rw [h, if_pos hbt]
  rfl

theorem tempOf_ab_min {f : Nat} {b : Board} {acc : LoopAcc} {nb : Board}
    {d : Int} {a beta : EU} (h : acc.nd = .ab d a beta)
    (hbt : b.MAX_turn = false) :
    tempOf (bmFuel f) b acc nb =
      pmin acc.util (treeUtil (bmFuel f nb (.ab (d - 1) a beta)).1) := by
  unfold tempOf
  rw [h, if_neg (by rw [hbt]; exact Bool.false_ne_true)]
  rfl

theorem ndOf_ab_max {f : Nat} {b : Board} {acc : LoopAcc} {nb : Board}
    {d : Int} {a beta : EU} (h : acc.nd = .ab d a beta)
    (hbt : b.MAX_turn = true) :
    ndOf (bmFuel f) b acc nb =
      .ab d (pmax a (tempOf (bmFuel f) b acc nb)) beta := by
  unfold ndOf
  rw [if_pos hbt, h]
  rfl

theorem ndOf_ab_min {f : Nat} {b : Board} {acc : LoopAcc} {nb : Board}
    {d : Int} {a beta : EU} (h : acc.nd = .ab d a beta)
    (hbt : b.MAX_turn = false) :
    ndOf (bmFuel f) b acc nb =
      .ab d a (pmin beta (tempOf (bmFuel f) b acc nb)) := by
  unfold ndOf
  rw [if_neg (by rw [hbt]; exact Bool.false_ne_true), h]
  rfl

theorem prune_ab_iff {d : Int} {a beta : EU} :
    (NodeData.ab d a beta).prune = true ↔ beta ≤ a := by
  unfold NodeData.prune
  exact decide_eq_true_iff

/-- Fail-soft alpha-beta bounds at fuel `f`: for a window `a < beta`, the
alpha-beta value of a node bounds the plain minimax value from below on a
fail-low, bounds it from above on a fail-high, and equals it inside the
window. -/
def ABB (f : Nat) : Prop :=
  ∀ (b : Board) (d : Int) (a beta : EU), a < beta →
    (treeUtil (bmFuel f b (.ab d a beta)).1 ≤ a →
      mmVal f b d ≤ treeUtil (bmFuel f b (.ab d a beta)).1) ∧
    (beta ≤ treeUtil (bmFuel f b (.ab d a beta)).1 →
      treeUtil (bmFuel f b (.ab d a beta)).1 ≤ mmVal f b d) ∧
    (a < treeUtil (bmFuel f b (.ab d a beta)).1 →
      treeUtil (bmFuel f b (.ab d a beta)).1 < beta →
      treeUtil (bmFuel f b (.ab d a beta)).1 = mmVal f b d)

/-- The move loop of an expanded MAX node preserves the fail-soft bounds:
relative to the running utility, the final utility bounds the minimax fold
of the legal successors according to where it lands in the window. -/
theorem ab_loop_max (f : Nat) (ihb : ABB f) (b : Board)
    (hbt : b.MAX_turn = true) (d : Int) (a beta : EU) (hab : a < beta)
    (ms : List (Int × Int)) :
    ∀ acc : LoopAcc, acc.stopped = false →
      acc.nd = .ab d (pmax a acc.util) beta →
      pmax a acc.util < beta →
      acc.util ≤ (ms.foldl (stepMoveF (bmFuel f) b) acc).util ∧
      ((ms.foldl (stepMoveF (bmFuel f) b) acc).util ≤ a →
        (legalSucc b ms).foldl (fun u nb => pmax u (mmVal f nb (d - 1)))
          acc.util ≤ (ms.foldl (stepMoveF (bmFuel f) b) acc).util) ∧
      (beta ≤ (ms.foldl (stepMoveF (bmFuel f) b) acc).util →
        (ms.foldl (stepMoveF (bmFuel f) b) acc).util ≤
          (legalSucc b ms).foldl (fun u nb => pmax u (mmVal f nb (d - 1)))
            negInf) ∧
      (a < (ms.foldl (stepMoveF (bmFuel f) b) acc).util →
        (ms.foldl (stepMoveF (bmFuel f) b) acc).util < beta →
        (ms.foldl (stepMoveF (bmFuel f) b) acc).util =
          (legalSucc b ms).foldl (fun u nb => pmax u (mmVal f nb (d - 1)))
            acc.util) := by
  induction ms with
  | nil =>
    intro acc h1 h2 h3
    have hu_lt : acc.util < beta := lt_of_le_of_lt (le_pmax_right a acc.util) h3
    refine ⟨le_rfl, ?_, ?_, ?_⟩
    · intro _; exact le_rfl
    · intro hgeb; exact absurd hgeb (not_le.mpr hu_lt)
    · intro _ _; rfl
  | cons m rest ih =>
    intro acc h1 h2 h3
    cases hp : place b m.1 m.2 with
    | none =>
      rw [List.foldl_cons, stepMoveF_illegal _ _ _ _ h1 hp,
        legalSucc_cons_none rest hp]
      exact ih acc h1 h2 h3
    | some nb =>
      rw [List.foldl_cons, stepMoveF_legal _ _ _ _ nb h1 hp,
        legalSucc_cons_some rest hp]
      have htempo := @tempOf_ab_max f _ _ nb _ _ _ h2 hbt
      set u1 := treeUtil (bmFuel f nb (.ab (d - 1) (pmax a acc.util) beta)).1
        with hu1
      set v1 := mmVal f nb (d - 1) with hv1
      obtain ⟨cL, cH, cE⟩ := ihb nb (d - 1) (pmax a acc.util) beta h3
      have hu1temp : u1 ≤ tempOf (bmFuel f) b acc nb := by
        rw [htempo]; exact le_pmax_right _ _
      have htmp_ge : acc.util ≤ tempOf (bmFuel f) b acc nb := by
        rw [htempo]; exact le_pmax_left _ _
      by_cases hrec : (tempOf (bmFuel f) b acc nb ≠ acc.util ∨
          acc.chosen = none)
      · -- a new best child is recorded
        have hnd1 := @ndOf_ab_max f _ _ nb _ _ _ h2 hbt
        have habs : pmax (pmax a acc.util) (tempOf (bmFuel f) b acc nb) =
            pmax a (tempOf (bmFuel f) b acc nb) := by
          rw [htempo, pmax_absorb]
        by_cases hpr : (ndOf (bmFuel f) b acc nb).prune = true
        · -- the loop breaks here
          rw [stepBody_rec_prune _ _ _ _ hrec hpr, loop_absorb _ _ _ _ rfl]
          have hba : beta ≤ pmax a (tempOf (bmFuel f) b acc nb) := by
            rw [hnd1, prune_ab_iff] at hpr
            rw [← habs]; exact hpr
          have hbt2 : beta ≤ tempOf (bmFuel f) b acc nb := by
            rcases le_pmax_iff.mp hba with h | h
            · exact absurd h (not_le.mpr hab)
            · exact h
          have hut : acc.util < beta :=
            lt_of_le_of_lt (le_pmax_right a acc.util) h3
          have htu1 : tempOf (bmFuel f) b acc nb = u1 := by
            rw [htempo]
            rcases pmax_choice acc.util u1 with hc | hc
            · rw [htempo, hc] at hbt2
              exact absurd hbt2 (not_le.mpr hut)
            · exact hc
          have hu1v1 : u1 ≤ v1 := cH (le_trans hbt2 (le_of_eq htu1))
          refine ⟨htmp_ge, ?_, ?_, ?_⟩
          · intro hle
            exact absurd (le_trans hbt2 hle) (not_le.mpr hab)
          · intro _
            simp only [List.foldl_cons, pmax_bot_left]
            calc tempOf (bmFuel f) b acc nb = u1 := htu1
              _ ≤ v1 := hu1v1
              _ ≤ _ := le_foldl_pmax _ _ v1
          · intro _ h5
            exact absurd hbt2 (not_le.mpr h5)
        · -- recorded without pruning
          have hprf : (ndOf (bmFuel f) b acc nb).prune = false := by
            simpa using hpr
          rw [stepBody_rec_noprune _ _ _ _ hrec hprf]
          have hlt2 : pmax a (tempOf (bmFuel f) b acc nb) < beta := by
            rw [hnd1] at hprf
            have : ¬ beta ≤ pmax (pmax a acc.util) (tempOf (bmFuel f) b acc nb) := by
              intro hcon
              rw [← @prune_ab_iff d _ _] at hcon
              rw [hprf] at hcon
              cases hcon
            rw [habs] at this
            exact not_le.mp this
          have htlt : tempOf (bmFuel f) b acc nb < beta :=
            lt_of_le_of_lt (le_pmax_right _ _) hlt2
          have hinv : ({ pushAcc (bmFuel f) b acc nb with
              util := tempOf (bmFuel f) b acc nb, chosen := some nb,
              nd := ndOf (bmFuel f) b acc nb } : LoopAcc).nd =
              .ab d (pmax a ({ pushAcc (bmFuel f) b acc nb with
                util := tempOf (bmFuel f) b acc nb, chosen := some nb,
                nd := ndOf (bmFuel f) b acc nb } : LoopAcc).util) beta := by
            show ndOf (bmFuel f) b acc nb =
              .ab d (pmax a (tempOf (bmFuel f) b acc nb)) beta
            rw [hnd1, habs]
          obtain ⟨i1, i2, i3, i4⟩ := ih { pushAcc (bmFuel f) b acc nb with
              util := tempOf (bmFuel f) b acc nb, chosen := some nb,
              nd := ndOf (bmFuel f) b acc nb } h1 hinv hlt2
          have hcase : v1 = u1 ∨ (v1 ≤ u1 ∧ u1 ≤ pmax a acc.util) := by
            by_cases hca : u1 ≤ pmax a acc.util
            · exact Or.inr ⟨cL hca, hca⟩
            · exact Or.inl (cE (not_le.mp hca)
                (lt_of_le_of_lt hu1temp htlt)).symm
          have hv1temp : v1 ≤ tempOf (bmFuel f) b acc nb := by
            rcases hcase with hc | hc
            · rw [hc]; exact hu1temp
            · exact le_trans hc.1 hu1temp
          refine ⟨le_trans htmp_ge i1, ?_, ?_, ?_⟩
          · intro hle
            have hi2 := i2 hle
            simp only [List.foldl_cons]
            calc (legalSucc b rest).foldl
                  (fun u nb => pmax u (mmVal f nb (d - 1)))
                  (pmax acc.util v1) ≤
                (legalSucc b rest).foldl
                  (fun u nb => pmax u (mmVal f nb (d - 1)))
                  (tempOf (bmFuel f) b acc nb) :=
                foldl_pmax_mono _ _ (pmax_le_iff.mpr ⟨htmp_ge, hv1temp⟩)
              _ ≤ _ := hi2
          · intro hge
            have hi3 := i3 hge
            simp only [List.foldl_cons, pmax_bot_left]
            calc (rest.foldl (stepMoveF (bmFuel f) b) _).util ≤
                (legalSucc b rest).foldl
                  (fun u nb => pmax u (mmVal f nb (d - 1))) negInf := hi3
              _ ≤ (legalSucc b rest).foldl
                  (fun u nb => pmax u (mmVal f nb (d - 1))) v1 :=
                foldl_pmax_mono _ _ bot_le
          · intro h4 h5
            have hi4 := i4 h4 h5
            simp only [List.foldl_cons]
            rw [← hv1]
            rcases hcase with hc | hc
            · rw [hi4, hc, ← htempo]
            · by_cases huu : u1 ≤ acc.util
              · have htac : tempOf (bmFuel f) b acc nb = acc.util := by
                  rw [htempo]; exact pmax_eq_left huu
                rw [hi4, htac, pmax_eq_left (le_trans hc.1 huu)]
              · have hua : pmax a acc.util = a := by
                  rcases pmax_choice a acc.util with hd1 | hd1
                  · exact hd1
                  · rw [hd1] at hc
                    exact absurd hc.2 huu
                have hu1a : u1 ≤ a := le_trans hc.2 (le_of_eq hua)
                have htu : tempOf (bmFuel f) b acc nb = u1 := by
                  rw [htempo]; exact pmax_eq_right (le_of_not_le huu)
                have htlt4 : tempOf (bmFuel f) b acc nb < (rest.foldl
                    (stepMoveF (bmFuel f) b) { pushAcc (bmFuel f) b acc nb with
                      util := tempOf (bmFuel f) b acc nb, chosen := some nb,
                      nd := ndOf (bmFuel f) b acc nb }).util :=
                  lt_of_le_of_lt (le_trans (le_of_eq htu) hu1a) h4
                rw [foldl_pmax_extract] at hi4
                have hMeq : (rest.foldl (stepMoveF (bmFuel f) b)
                    { pushAcc (bmFuel f) b acc nb with
                      util := tempOf (bmFuel f) b acc nb, chosen := some nb,
                      nd := ndOf (bmFuel f) b acc nb }).util =
                    (legalSucc b rest).foldl
                      (fun u nb => pmax u (mmVal f nb (d - 1))) negInf := by
                  rcases pmax_choice (tempOf (bmFuel f) b acc nb)
                      ((legalSucc b rest).foldl
                        (fun u nb => pmax u (mmVal f nb (d - 1))) negInf)
                      with hch | hch
                  · rw [hch] at hi4
                    exact absurd hi4 (ne_of_gt htlt4)
                  · rw [hch] at hi4
                    exact hi4
                rw [foldl_pmax_extract, hMeq]
                apply (pmax_eq_right _).symm
                rw [← hMeq]
                have hle2 : pmax acc.util v1 ≤ tempOf (bmFuel f) b acc nb :=
                  pmax_le_iff.mpr ⟨htmp_ge, hv1temp⟩
                exact le_trans hle2 (le_of_lt htlt4)
      · -- no improvement: the child is kept but nothing is recorded
        push_neg at hrec
        have htemp : tempOf (bmFuel f) b acc nb = acc.util := hrec.1
        rw [stepBody_skip _ _ _ _ htemp hrec.2]
        obtain ⟨i1, i2, i3, i4⟩ := ih (pushAcc (bmFuel f) b acc nb) h1 h2 h3
        have hu1le : u1 ≤ acc.util := by
          have hpe : pmax acc.util u1 = acc.util := by
            rw [← htempo]; exact htemp
          exact pmax_eq_left_iff.mp hpe
        have hv1le : v1 ≤ acc.util :=
          le_trans (cL (le_trans hu1le (le_pmax_right a acc.util))) hu1le
        refine ⟨i1, ?_, ?_, ?_⟩
        · intro hle
          have hi2 := i2 hle
          simp only [List.foldl_cons]
          rw [pmax_eq_left hv1le]
          exact hi2
        · intro hge
          have hi3 := i3 hge
          simp only [List.foldl_cons, pmax_bot_left]
          calc (rest.foldl (stepMoveF (bmFuel f) b) _).util ≤
              (legalSucc b rest).foldl
                (fun u nb => pmax u (mmVal f nb (d - 1))) negInf := hi3
            _ ≤ (legalSucc b rest).foldl
                (fun u nb => pmax u (mmVal f nb (d - 1))) v1 :=
              foldl_pmax_mono _ _ bot_le
        · intro h4 h5
          have hi4 := i4 h4 h5
          simp only [List.foldl_cons]
          rw [pmax_eq_left hv1le]
          exact hi4

/-- The move loop of an expanded MIN node preserves the fail-soft bounds:
the dual of `ab_loop_max`. -/
theorem ab_loop_min (f : Nat) (ihb : ABB f) (b : Board)
    (hbt : b.MAX_turn = false) (d : Int) (a beta : EU) (hab : a < beta)
    (ms : List (Int × Int)) :
    ∀ acc : LoopAcc, acc.stopped = false →
      acc.nd = .ab d a (pmin beta acc.util) →
      a < pmin beta acc.util →
      (ms.foldl (stepMoveF (bmFuel f) b) acc).util ≤ acc.util ∧
      (beta ≤ (ms.foldl (stepMoveF (bmFuel f) b) acc).util →
        (ms.foldl (stepMoveF (bmFuel f) b) acc).util ≤
          (legalSucc b ms).foldl (fun u nb => pmin u (mmVal f nb (d - 1)))
            acc.util) ∧
      ((ms.foldl (stepMoveF (bmFuel f) b) acc).util ≤ a →
        (legalSucc b ms).foldl (fun u nb => pmin u (mmVal f nb (d - 1)))
          posInf ≤ (ms.foldl (stepMoveF (bmFuel f) b) acc).util) ∧
      (a < (ms.foldl (stepMoveF (bmFuel f) b) acc).util →
        (ms.foldl (stepMoveF (bmFuel f) b) acc).util < beta →
        (ms.foldl (stepMoveF (bmFuel f) b) acc).util =
          (legalSucc b ms).foldl (fun u nb => pmin u (mmVal f nb (d - 1)))
            acc.util) := by
  induction ms with
  | nil =>
    intro acc h1 h2 h3
    have hu_gt : a < acc.util := lt_of_lt_of_le h3 (pmin_le_right beta acc.util)
    refine ⟨le_rfl, ?_, ?_, ?_⟩
    · intro _; exact le_rfl
    · intro hlea; exact absurd hlea (not_le.mpr hu_gt)
    · intro _ _; rfl
  | cons m rest ih =>
    intro acc h1 h2 h3
    cases hp : place b m.1 m.2 with
    | none =>
      rw [List.foldl_cons, stepMoveF_illegal _ _ _ _ h1 hp,
        legalSucc_cons_none rest hp]
      exact ih acc h1 h2 h3
    | some nb =>
      rw [List.foldl_cons, stepMoveF_legal _ _ _ _ nb h1 hp,
        legalSucc_cons_some rest hp]
      have htempo := @tempOf_ab_min f _ _ nb _ _ _ h2 hbt
      set u1 := treeUtil (bmFuel f nb (.ab (d - 1) a (pmin beta acc.util))).1
        with hu1
      set v1 := mmVal f nb (d - 1) with hv1
      obtain ⟨cL, cH, cE⟩ := ihb nb (d - 1) a (pmin beta acc.util) h3
      have hu1temp : tempOf (bmFuel f) b acc nb ≤ u1 := by
        rw [htempo]; exact pmin_le_right _ _
      have htmp_le : tempOf (bmFuel f) b acc nb ≤ acc.util := by
        rw [htempo]; exact pmin_le_left _ _
      by_cases hrec : (tempOf (bmFuel f) b acc nb ≠ acc.util ∨
          acc.chosen = none)
      · -- a new best child is recorded
        have hnd1 := @ndOf_ab_min f _ _ nb _ _ _ h2 hbt
        have habs : pmin (pmin beta acc.util) (tempOf (bmFuel f) b acc nb) =
            pmin beta (tempOf (bmFuel f) b acc nb) := by
          rw [htempo, pmin_absorb]
        by_cases hpr : (ndOf (bmFuel f) b acc nb).prune = true
        · -- the loop breaks here
          rw [stepBody_rec_prune _ _ _ _ hrec hpr, loop_absorb _ _ _ _ rfl]
          have hba : pmin beta (tempOf (bmFuel f) b acc nb) ≤ a := by
            rw [hnd1, prune_ab_iff] at hpr
            rw [← habs]; exact hpr
          have hbt2 : tempOf (bmFuel f) b acc nb ≤ a := by
            rcases pmin_le_iff.mp hba with h | h
            · exact absurd h (not_le.mpr hab)
            · exact h
          have hut : a < acc.util :=
            lt_of_lt_of_le h3 (pmin_le_right beta acc.util)
          have htu1 : tempOf (bmFuel f) b acc nb = u1 := by
            rw [htempo]
            rcases pmin_choice acc.util u1 with hc | hc
            · rw [htempo, hc] at hbt2
              exact absurd hbt2 (not_le.mpr hut)
            · exact hc
          have hv1u1 : v1 ≤ u1 := cL (le_trans (le_of_eq htu1.symm) hbt2)
          refine ⟨htmp_le, ?_, ?_, ?_⟩
          · intro hge
            exact absurd (le_trans hge hbt2) (not_le.mpr hab)
          · intro _
            simp only [List.foldl_cons, pmin_top_left]
            calc (legalSucc b rest).foldl
                  (fun u nb => pmin u (mmVal f nb (d - 1))) v1 ≤ v1 :=
                foldl_pmin_le _ _ v1
              _ ≤ u1 := hv1u1
              _ = tempOf (bmFuel f) b acc nb := htu1.symm
          · intro h4 _
            exact absurd hbt2 (not_le.mpr h4)
        · -- recorded without pruning
          have hprf : (ndOf (bmFuel f) b acc nb).prune = false := by
            simpa using hpr
          rw [stepBody_rec_noprune _ _ _ _ hrec hprf]
          have hlt2 : a < pmin beta (tempOf (bmFuel f) b acc nb) := by
            rw [hnd1] at hprf
            have : ¬ pmin (pmin beta acc.util) (tempOf (bmFuel f) b acc nb) ≤ a := by
              intro hcon
              rw [← @prune_ab_iff d _ _] at hcon
              rw [hprf] at hcon
              cases hcon
            rw [habs] at this
            exact not_le.mp this
          have htgt : a < tempOf (bmFuel f) b acc nb :=
            lt_of_lt_of_le hlt2 (pmin_le_right _ _)
          have hinv : ({ pushAcc (bmFuel f) b acc nb with
              util := tempOf (bmFuel f) b acc nb, chosen := some nb,
              nd := ndOf (bmFuel f) b acc nb } : LoopAcc).nd =
              .ab d a (pmin beta ({ pushAcc (bmFuel f) b acc nb with
                util := tempOf (bmFuel f) b acc nb, chosen := some nb,
                nd := ndOf (bmFuel f) b acc nb } : LoopAcc).util) := by
            show ndOf (bmFuel f) b acc nb =
              .ab d a (pmin beta (tempOf (bmFuel f) b acc nb))
            rw [hnd1, habs]
          obtain ⟨i1, i2, i3, i4⟩ := ih { pushAcc (bmFuel f) b acc nb with
              util := tempOf (bmFuel f) b acc nb, chosen := some nb,
              nd := ndOf (bmFuel f) b acc nb } h1 hinv hlt2
          have hcase : v1 = u1 ∨ (u1 ≤ v1 ∧ pmin beta acc.util ≤ u1) := by
            by_cases hca : pmin beta acc.util ≤ u1
            · exact Or.inr ⟨cH hca, hca⟩
            · exact Or.inl (cE (lt_of_lt_of_le htgt hu1temp)
                (not_le.mp hca)).symm
          have hv1temp : tempOf (bmFuel f) b acc nb ≤ v1 := by
            rcases hcase with hc | hc
            · rw [hc]; exact hu1temp
            · exact le_trans hu1temp hc.1
          refine ⟨le_trans i1 htmp_le, ?_, ?_, ?_⟩
          · intro hge
            have hi2 := i2 hge
            simp only [List.foldl_cons]
            calc (rest.foldl (stepMoveF (bmFuel f) b) _).util ≤
                (legalSucc b rest).foldl
                  (fun u nb => pmin u (mmVal f nb (d - 1)))
                  (tempOf (bmFuel f) b acc nb) := hi2
              _ ≤ (legalSucc b rest).foldl
                  (fun u nb => pmin u (mmVal f nb (d - 1)))
                  (pmin acc.util v1) :=
                foldl_pmin_mono _ _ (le_pmin_iff.mpr ⟨htmp_le, hv1temp⟩)
          · intro hle
            have hi3 := i3 hle
            simp only [List.foldl_cons, pmin_top_left]
            calc (legalSucc b rest).foldl
                  (fun u nb => pmin u (mmVal f nb (d - 1))) v1 ≤
                (legalSucc b rest).foldl
                  (fun u nb => pmin u (mmVal f nb (d - 1))) posInf :=
                foldl_pmin_mono _ _ (by rw [posInf_top]; exact le_top)
              _ ≤ _ := hi3
          · intro h4 h5
            have hi4 := i4 h4 h5
            simp only [List.foldl_cons]
            rw [← hv1]
            rcases hcase with hc | hc
            · rw [hi4, hc, ← htempo]
            · by_cases huu : acc.util ≤ u1
              · have htac : tempOf (bmFuel f) b acc nb = acc.util := by
                  rw [htempo]; exact pmin_eq_left huu
                rw [hi4, htac, pmin_eq_left (le_trans huu hc.1)]
              · have hua : pmin beta acc.util = beta := by
                  rcases pmin_choice beta acc.util with hd1 | hd1
                  · exact hd1
                  · rw [hd1] at hc
                    exact absurd hc.2 huu
                have hu1b : beta ≤ u1 := le_trans (le_of_eq hua.symm) hc.2
                have htu : tempOf (bmFuel f) b acc nb = u1 := by
                  rw [htempo]; exact pmin_eq_right (le_of_not_le huu)
                have htlt4 : (rest.foldl (stepMoveF (bmFuel f) b)
                    { pushAcc (bmFuel f) b acc nb with
                      util := tempOf (bmFuel f) b acc nb, chosen := some nb,
                      nd := ndOf (bmFuel f) b acc nb }).util <
                    tempOf (bmFuel f) b acc nb :=
                  lt_of_lt_of_le h5 (le_trans hu1b (le_of_eq htu.symm))
                rw [foldl_pmin_extract] at hi4
                have hMeq : (rest.foldl (stepMoveF (bmFuel f) b)
                    { pushAcc (bmFuel f) b acc nb with
                      util := tempOf (bmFuel f) b acc nb, chosen := some nb,
                      nd := ndOf (bmFuel f) b acc nb }).util =
                    (legalSucc b rest).foldl
                      (fun u nb => pmin u (mmVal f nb (d - 1))) posInf := by
                  rcases pmin_choice (tempOf (bmFuel f) b acc nb)
                      ((legalSucc b rest).foldl
                        (fun u nb => pmin u (mmVal f nb (d - 1))) posInf)
                      with hch | hch
                  · rw [hch] at hi4
                    exact absurd hi4 (ne_of_lt htlt4)
                  · rw [hch] at hi4
                    exact hi4
                rw [foldl_pmin_extract, hMeq]
                apply (pmin_eq_right _).symm
                rw [← hMeq]
                have hge2 : tempOf (bmFuel f) b acc nb ≤ pmin acc.util v1 :=
                  le_pmin_iff.mpr ⟨htmp_le, hv1temp⟩
                exact le_trans (le_of_lt htlt4) hge2
      · -- no improvement: the child is kept but nothing is recorded
        push_neg at hrec
        have htemp : tempOf (bmFuel f) b acc nb = acc.util := hrec.1
        rw [stepBody_skip _ _ _ _ htemp hrec.2]
        obtain ⟨i1, i2, i3, i4⟩ := ih (pushAcc (bmFuel f) b acc nb) h1 h2 h3
        have hu1ge : acc.util ≤ u1 := by
          have hpe : pmin acc.util u1 = acc.util := by
            rw [← htempo]; exact htemp
          exact pmin_eq_left_iff.mp hpe
        have hv1ge : acc.util ≤ v1 :=
          le_trans hu1ge (cH (le_trans (pmin_le_right beta acc.util) hu1ge))
        refine ⟨i1, ?_, ?_, ?_⟩
        · intro hge
          have hi2 := i2 hge
          simp only [List.foldl_cons]
          rw [pmin_eq_left hv1ge]
          exact hi2
        · intro hle
          have hi3 := i3 hle
          simp only [List.foldl_cons, pmin_top_left]
          calc (legalSucc b rest).foldl
                (fun u nb => pmin u (mmVal f nb (d - 1))) v1 ≤
              (legalSucc b rest).foldl
                (fun u nb => pmin u (mmVal f nb (d - 1))) posInf :=
              foldl_pmin_mono _ _ (by rw [posInf_top]; exact le_top)
            _ ≤ _ := hi3
        · intro h4 h5
          have hi4 := i4 h4 h5
          simp only [List.foldl_cons]
          rw [pmin_eq_left hv1ge]
          exact hi4

theorem abb_zero : ABB 0 := by
  intro b d a beta _
  refine ⟨fun _ => le_rfl, fun _ => le_rfl, fun _ _ => rfl⟩

theorem abb_succ (f : Nat) (ih : ABB f) : ABB (f + 1) := by
  intro b d a beta hab
  by_cases hcond : d ≠ 0 ∧ b.done = false
  · have hcond' : (NodeData.ab d a beta).depth ≠ 0 ∧ b.done = false :=
      ⟨hcond.1, hcond.2⟩
    have htu : treeUtil (bmFuel (f + 1) b (.ab d a beta)).1 =
        ((allMoves b).foldl (stepMoveF (bmFuel f) b)
          (initAcc b (.ab d a beta))).util := by
      rw [bmFuel_succ, if_pos hcond']
      rfl
    cases hbt : b.MAX_turn with
    | true =>
      have hiu : (initAcc b (.ab d a beta)).util = negInf := by
        rw [initAcc_util, if_pos hbt]
      have hinv1 : (initAcc b (.ab d a beta)).nd =
          .ab d (pmax a (initAcc b (.ab d a beta)).util) beta := by
        show NodeData.ab d a beta = _
        rw [hiu, pmax_bot_right]
      have hinv2 : pmax a (initAcc b (.ab d a beta)).util < beta := by
        rw [hiu, pmax_bot_right]; exact hab
      obtain ⟨l1, l2, l3, l4⟩ := ab_loop_max f ih b hbt d a beta hab
        (allMoves b) (initAcc b (.ab d a beta)) rfl hinv1 hinv2
      have hmv : mmVal (f + 1) b d = (legalSucc b (allMoves b)).foldl
          (fun u nb => pmax u (mmVal f nb (d - 1))) negInf := by
        rw [mmVal_succ, if_pos hcond, if_pos hbt]
        apply foldl_ext_mem
        intro u nb _
        rw [if_pos hbt]
      refine ⟨?_, ?_, ?_⟩
      · intro hle
        rw [htu] at hle ⊢
        rw [hmv]
        have := l2 hle
        rw [hiu] at this
        exact this
      · intro hge
        rw [htu] at hge ⊢
        rw [hmv]
        exact l3 hge
      · intro h4 h5
        rw [htu] at h4 h5 ⊢
        rw [hmv]
        have := l4 h4 h5
        rw [hiu] at this
        exact this
    | false =>
      have hiu : (initAcc b (.ab d a beta)).util = posInf := by
        rw [initAcc_util, if_neg (by rw [hbt]; exact Bool.false_ne_true)]
      have hinv1 : (initAcc b (.ab d a beta)).nd =
          .ab d a (pmin beta (initAcc b (.ab d a beta)).util) := by
        show NodeData.ab d a beta = _
        rw [hiu, pmin_top_right]
      have hinv2 : a < pmin beta (initAcc b (.ab d a beta)).util := by
        rw [hiu, pmin_top_right]; exact hab
      obtain ⟨l1, l2, l3, l4⟩ := ab_loop_min f ih b hbt d a beta hab
        (allMoves b) (initAcc b (.ab d a beta)) rfl hinv1 hinv2
      have hmv : mmVal (f + 1) b d = (legalSucc b (allMoves b)).foldl
          (fun u nb => pmin u (mmVal f nb (d - 1))) posInf := by
        rw [mmVal_succ, if_pos hcond,
          if_neg (by rw [hbt]; exact Bool.false_ne_true)]
        apply foldl_ext_mem
        intro u nb _
        rw [if_neg (by rw [hbt]; exact Bool.false_ne_true)]
      refine ⟨?_, ?_, ?_⟩
      · intro hle
        rw [htu] at hle ⊢
        rw [hmv]
        exact l3 hle
      · intro hge
        rw [htu] at hge ⊢
        rw [hmv]
        have := l2 hge
        rw [hiu] at this
        exact this
      · intro h4 h5
        rw [htu] at h4 h5 ⊢
        rw [hmv]
        have := l4 h4 h5
        rw [hiu] at this
        exact this
  · have h' : (NodeData.ab d a beta).depth = 0 ∨ b.done = true :=
      not_expand_leaf hcond
    rw [bmFuel_leaf h', mmVal_succ, if_neg hcond, treeUtil_none]
    refine ⟨fun _ => le_rfl, fun _ => le_rfl, fun _ _ => rfl⟩

/-- Fail-soft alpha-beta bounds hold at every fuel. -/
theorem abb_all (f : Nat) : ABB f := by
  induction f with
  | zero => exact abb_zero
  | succ f ih => exact abb_succ f ih

/-- With the full window `(-inf, inf)`, alpha-beta computes exactly the
minimax root value. -/
theorem ab_value_eq_mm (f : Nat) (b : Board) (d : Int) :
    treeUtil (bmFuel f b (.ab d negInf posInf)).1 =
      treeUtil (bmFuel f b (.mm d)).1 := by
  obtain ⟨h1, h2, h3⟩ := abb_all f b d negInf posInf botEU_lt_top
  rw [treeUtil_mm]
  by_cases hle : treeUtil (bmFuel f b (.ab d negInf posInf)).1 ≤ negInf
  · exact le_antisymm (le_trans hle bot_le) (h1 hle)
  · by_cases hge : posInf ≤ treeUtil (bmFuel f b (.ab d negInf posInf)).1
    · exact le_antisymm (h2 hge) (le_trans le_top hge)
    · exact h3 (not_le.mp hle) (not_le.mp hge)

end ABBounds

section CountComparison

theorem stepBody_expanded (recf : Board → NodeData → GTree × Nat) (b : Board)
    (acc : LoopAcc) (nb : Board) :
    (stepBody recf b acc nb).expanded =
      acc.expanded + (recf nb acc.nd.child).2 := by
  unfold stepBody pushAcc
  split_ifs <;> rfl

theorem stepBody_mm (f : Nat) (b : Board) (acc : LoopAcc) (nb : Board)
    (d : Int) (h : acc.nd = .mm d) :
    (stepBody (bmFuel f) b acc nb).nd = .mm d ∧
    (stepBody (bmFuel f) b acc nb).stopped = acc.stopped ∧
    (stepBody (bmFuel f) b acc nb).expanded =
      acc.expanded + (bmFuel f nb (.mm (d - 1))).2 := by
  have hch : acc.nd.child = NodeData.mm (d - 1) := by rw [h]; rfl
  by_cases h1 : (tempOf (bmFuel f) b acc nb ≠ acc.util ∨ acc.chosen = none)
  · have h2 : (ndOf (bmFuel f) b acc nb).prune = false := by
      rw [ndOf_mm h]; rfl
    rw [stepBody_rec_noprune _ _ _ _ h1 h2]
    refine ⟨?_, rfl, ?_⟩
    · show ndOf (bmFuel f) b acc nb = NodeData.mm d
      exact ndOf_mm h
    · show acc.expanded + (bmFuel f nb acc.nd.child).2 = _
      rw [hch]
  · push_neg at h1
    rw [stepBody_skip _ _ _ _ h1.1 h1.2]
    refine ⟨h, rfl, ?_⟩
    show acc.expanded + (bmFuel f nb acc.nd.child).2 = _
    rw [hch]

theorem stepBody_ab_facts (f : Nat) (b : Board) (acc : LoopAcc) (nb : Board)
    (d : Int) (a' b' : EU) (h : acc.nd = .ab d a' b') (hwin : a' < b') :
    (stepBody (bmFuel f) b acc nb).expanded =
      acc.expanded + (bmFuel f nb (.ab (d - 1) a' b')).2 ∧
    ((stepBody (bmFuel f) b acc nb).stopped = false →
      ∃ a2 b2, (stepBody (bmFuel f) b acc nb).nd = .ab d a2 b2 ∧ a2 < b2) := by
  have hch : acc.nd.child = NodeData.ab (d - 1) a' b' := by rw [h]; rfl
  constructor
  · rw [stepBody_expanded, hch]
  · intro hs
    by_cases h1 : (tempOf (bmFuel f) b acc nb ≠ acc.util ∨ acc.chosen = none)
    · by_cases h2 : (ndOf (bmFuel f) b acc nb).prune = true
      · rw [stepBody_rec_prune _ _ _ _ h1 h2] at hs
        simp at hs
      · have h2f : (ndOf (bmFuel f) b acc nb).prune = false := by
          simpa using h2
        rw [stepBody_rec_noprune _ _ _ _ h1 h2f]
        cases hbt : b.MAX_turn with
        | true =>
          refine ⟨pmax a' (tempOf (bmFuel f) b acc nb), b', ?_, ?_⟩
          · show ndOf (bmFuel f) b acc nb = _
            rw [ndOf_ab_max h hbt]
          · rw [ndOf_ab_max h hbt, prune_ab_iff] at h2
            exact not_le.mp h2
        | false =>
          refine ⟨a', pmin b' (tempOf (bmFuel f) b acc nb), ?_, ?_⟩
          · show ndOf (bmFuel f) b acc nb = _
            rw [ndOf_ab_min h hbt]
          · rw [ndOf_ab_min h hbt, prune_ab_iff] at h2
            exact not_le.mp h2
    · push_neg at h1
      rw [stepBody_skip _ _ _ _ h1.1 h1.2]
      exact ⟨a', b', h, hwin⟩

theorem mm_fold_expanded_ge (f : Nat) (b : Board) (d : Int)
    (ms : List (Int × Int)) (acM : LoopAcc) (h1 : acM.stopped = false)
    (h2 : acM.nd = .mm d) :
    acM.expanded ≤ (ms.foldl (stepMoveF (bmFuel f) b) acM).expanded := by
  obtain ⟨_, _, _, i4, _, _⟩ := mm_loop f b d ms acM h1 h2
  omega

/-- Step-by-step comparison of the alpha-beta loop with the plain minimax
loop: alpha-beta never expands more nodes. -/
theorem count_loop (f : Nat)
    (ihc : ∀ (b : Board) (d : Int) (a beta : EU), a < beta →
      (bmFuel f b (.ab d a beta)).2 ≤ (bmFuel f b (.mm d)).2)
    (b : Board) (d : Int) (ms : List (Int × Int)) :
    ∀ (acA acM : LoopAcc), acM.stopped = false → acM.nd = .mm d →
      (acA.stopped = false →
        ∃ a' b', acA.nd = .ab d a' b' ∧ a' < b') →
      acA.expanded ≤ acM.expanded →
      (ms.foldl (stepMoveF (bmFuel f) b) acA).expanded ≤
        (ms.foldl (stepMoveF (bmFuel f) b) acM).expanded := by
  induction ms with
  | nil => intro acA acM _ _ _ hexp; exact hexp
  | cons m rest ih =>
    intro acA acM hsM hndM hinv hexp
    by_cases hsA : acA.stopped = true
    · rw [loop_absorb _ _ _ _ hsA]
      exact le_trans hexp (mm_fold_expanded_ge f b d (m :: rest) acM hsM hndM)
    · have hsA' : acA.stopped = false := by simpa using hsA
      obtain ⟨a', b', hndA, hwin⟩ := hinv hsA'
      cases hp : place b m.1 m.2 with
      | none =>
        rw [List.foldl_cons, List.foldl_cons,
          stepMoveF_illegal _ _ _ _ hsA' hp, stepMoveF_illegal _ _ _ _ hsM hp]
        exact ih acA acM hsM hndM hinv hexp
      | some nb =>
        rw [List.foldl_cons, List.foldl_cons,
          stepMoveF_legal _ _ _ _ nb hsA' hp, stepMoveF_legal _ _ _ _ nb hsM hp]
        obtain ⟨eA, hA⟩ := stepBody_ab_facts f b acA nb d a' b' hndA hwin
        obtain ⟨ndM', sM', eM⟩ := stepBody_mm f b acM nb d hndM
        apply ih
        · rw [sM']; exact hsM
        · exact ndM'
        · exact hA
        · rw [eA, eM]
          have := ihc nb (d - 1) a' b' hwin
          omega

/-- Alpha-beta expands at most as many nodes as plain minimax, for every
open window and fuel. -/
theorem ab_count_le (f : Nat) : ∀ (b : Board) (d : Int) (a beta : EU),
    a < beta → (bmFuel f b (.ab d a beta)).2 ≤ (bmFuel f b (.mm d)).2 := by
  induction f with
  | zero => intro b d a beta _; exact le_rfl
  | succ f ihc =>
    intro b d a beta hab
    by_cases hcond : d ≠ 0 ∧ b.done = false
    · have hcondA : (NodeData.ab d a beta).depth ≠ 0 ∧ b.done = false :=
        ⟨hcond.1, hcond.2⟩
      have hcondM : (NodeData.mm d).depth ≠ 0 ∧ b.done = false :=
        ⟨hcond.1, hcond.2⟩
      rw [bmFuel_succ, bmFuel_succ, if_pos hcondA, if_pos hcondM]
      have := count_loop f ihc b d (allMoves b)
        (initAcc b (.ab d a beta)) (initAcc b (.mm d)) rfl rfl
        (fun _ => ⟨a, beta, rfl, hab⟩) le_rfl
      simpa using Nat.add_le_add_left this 1
    · have hA : (NodeData.ab d a beta).depth = 0 ∨ b.done = true :=
        not_expand_leaf hcond
      have hM : (NodeData.mm d).depth = 0 ∨ b.done = true :=
        not_expand_leaf hcond
      rw [bmFuel_leaf hA, bmFuel_leaf hM]

end CountComparison

/-- C1: for every board state and every depth, `minimax_ab` returns the
same root utility as `minimax`, and it expands at most as many states. -/
theorem claim_c1_pruning_equiv (b : Board) (d : Int) :
    treeUtil (minimax_ab b d).1 = treeUtil (minimax b d).1 ∧
    (minimax_ab b d).2 ≤ (minimax b d).2 := by
  unfold minimax minimax_ab
  exact ⟨ab_value_eq_mm (searchFuel b) b d,
    ab_count_le (searchFuel b) b d negInf posInf botEU_lt_top⟩

section RootChosen

/-- Through the loop of a root call (alpha pinned below `inf` for MAX,
beta pinned above `-inf` for MIN), the chosen child ends up set iff it was
set before or some legal move exists: the prune-time clearing never fires
because a root prune forces the recorded utility to be the exact infinity
that keeps the chosen child. -/
theorem ab_root_loop (f : Nat) (b : Board) (d : Int)
    (ms : List (Int × Int)) :
    ∀ acc : LoopAcc, acc.stopped = false →
      (∃ al bt, acc.nd = .ab d al bt ∧
        (b.MAX_turn = true → bt = posInf ∧ al ≠ posInf) ∧
        (b.MAX_turn = false → al = negInf ∧ bt ≠ negInf)) →
      ((ms.foldl (stepMoveF (bmFuel f) b) acc).chosen = none ↔
        (acc.chosen = none ∧ legalSucc b ms = [])) := by
  induction ms with
  | nil =>
    intro acc h1 _
    simp [legalSucc]
  | cons m rest ih =>
    intro acc h1 hinv
    obtain ⟨al, bt, hnd, hmax, hmin⟩ := hinv
    cases hp : place b m.1 m.2 with
    | none =>
      rw [List.foldl_cons, stepMoveF_illegal _ _ _ _ h1 hp,
        legalSucc_cons_none rest hp]
      exact ih acc h1 ⟨al, bt, hnd, hmax, hmin⟩
    | some nb =>
      rw [List.foldl_cons, stepMoveF_legal _ _ _ _ nb h1 hp,
        legalSucc_cons_some rest hp]
      by_cases hrec : (tempOf (bmFuel f) b acc nb ≠ acc.util ∨
          acc.chosen = none)
      · by_cases hpr : (ndOf (bmFuel f) b acc nb).prune = true
        · -- prune at this child: the recorded utility must be the exact
          -- infinity, so the chosen child is kept and the loop stops
          have hinf : tempOf (bmFuel f) b acc nb = posInf ∨
              tempOf (bmFuel f) b acc nb = negInf := by
            cases hbt : b.MAX_turn with
            | true =>
              obtain ⟨hbtop, hal⟩ := hmax hbt
              rw [ndOf_ab_max hnd hbt, hbtop, prune_ab_iff, posInf_top,
                top_le_iff] at hpr
              rcases pmax_choice al (tempOf (bmFuel f) b acc nb) with hc | hc
              · rw [hc] at hpr
                exact absurd hpr hal
              · rw [hc] at hpr
                exact Or.inl (by rw [hpr, posInf_top])
            | false =>
              obtain ⟨halb, hbb⟩ := hmin hbt
              rw [ndOf_ab_min hnd hbt, halb, prune_ab_iff, negInf_bot,
                le_bot_iff] at hpr
              rcases pmin_choice bt (tempOf (bmFuel f) b acc nb) with hc | hc
              · rw [hc] at hpr
                exact absurd hpr hbb
              · rw [hc] at hpr
                exact Or.inr (by rw [hpr, negInf_bot])
          rw [stepBody_rec_prune _ _ _ _ hrec hpr, loop_absorb _ _ _ _ rfl]
          have : (if tempOf (bmFuel f) b acc nb = posInf ∨
              tempOf (bmFuel f) b acc nb = negInf
              then some nb else none) = some nb := if_pos hinf
          simp [this]
        · have hprf : (ndOf (bmFuel f) b acc nb).prune = false := by
            simpa using hpr
          rw [stepBody_rec_noprune _ _ _ _ hrec hprf]
          have hinv' : ∃ al2 bt2,
              ({ pushAcc (bmFuel f) b acc nb with
                  util := tempOf (bmFuel f) b acc nb, chosen := some nb,
                  nd := ndOf (bmFuel f) b acc nb } : LoopAcc).nd =
                .ab d al2 bt2 ∧
              (b.MAX_turn = true → bt2 = posInf ∧ al2 ≠ posInf) ∧
              (b.MAX_turn = false → al2 = negInf ∧ bt2 ≠ negInf) := by
            cases hbt : b.MAX_turn with
            | true =>
              obtain ⟨hbtop, hal⟩ := hmax hbt
              refine ⟨pmax al (tempOf (bmFuel f) b acc nb), bt, ?_, ?_, ?_⟩
              · show ndOf (bmFuel f) b acc nb = _
                rw [ndOf_ab_max hnd hbt]
              · intro _
                refine ⟨hbtop, ?_⟩
                rw [ndOf_ab_max hnd hbt, hbtop, prune_ab_iff] at hpr
                intro hcon
                exact hpr (by rw [hcon, posInf_top])
              · intro hcon; simp [hbt] at hcon
            | false =>
              obtain ⟨halb, hbb⟩ := hmin hbt
              refine ⟨al, pmin bt (tempOf (bmFuel f) b acc nb), ?_, ?_, ?_⟩
              · show ndOf (bmFuel f) b acc nb = _
                rw [ndOf_ab_min hnd hbt]
              · intro hcon; simp [hbt] at hcon
              · intro _
                refine ⟨halb, ?_⟩
                rw [ndOf_ab_min hnd hbt, halb, prune_ab_iff] at hpr
                intro hcon
                exact hpr (by rw [hcon, negInf_bot])
          rw [ih ({ pushAcc (bmFuel f) b acc nb with
              util := tempOf (bmFuel f) b acc nb, chosen := some nb,
              nd := ndOf (bmFuel f) b acc nb }) h1 hinv']
          simp
      · push_neg at hrec
        rw [stepBody_skip _ _ _ _ hrec.1 hrec.2]
        rw [ih (pushAcc (bmFuel f) b acc nb) h1 ⟨al, bt, hnd, hmax, hmin⟩]
        simp [pushAcc, hrec.2]

end RootChosen

/-- C2 counterexample: at depth 0 the search does not expand the root, so
the root's `chosen_child` is left unset even though the 1x1 starting board
is non-terminal and has a legal move.  This refutes the claim as stated
for arbitrary depths. -/
theorem claim_c2_counterexample :
    bOne.done = false ∧ place bOne 0 0 ≠ none ∧
    (minimax bOne 0).1.chosen = none ∧
    (minimax_ab bOne 0).1.chosen = none := by decide

/-- C2 (amended to nonzero depths, as the depth-0 counterexample forces):
whenever a search actually expands a non-terminal root that has at least
one legal move, the root's `chosen_child` is set — for `minimax_ab` the
prune-time clearing never fires at the root because alpha and beta start
at the infinities there. -/
theorem claim_c2_root_chosen (b : Board) (d : Int) (hd : d ≠ 0)
    (hdone : b.done = false)
    (hmove : ∃ m ∈ allMoves b, place b m.1 m.2 ≠ none) :
    (minimax b d).1.chosen ≠ none ∧ (minimax_ab b d).1.chosen ≠ none := by
  have hlegal : legalSucc b (allMoves b) ≠ [] := by
    obtain ⟨m, hm, hpm⟩ := hmove
    intro hnil
    unfold legalSucc at hnil
    rw [List.filterMap_eq_nil] at hnil
    exact hpm (hnil m hm)
  constructor
  · unfold minimax
    intro hnone
    obtain ⟨_, _, hiff⟩ := mm_expand (countOpen b.tiles) b d hd hdone
    exact hlegal (hiff.mp hnone)
  · unfold minimax_ab
    have hcond' : (NodeData.ab d negInf posInf).depth ≠ 0 ∧ b.done = false :=
      ⟨hd, hdone⟩
    intro hnone
    unfold searchFuel at hnone
    rw [bmFuel_succ, if_pos hcond'] at hnone
    have hinv : ∃ al bt,
        (initAcc b (.ab d negInf posInf)).nd = .ab d al bt ∧
        (b.MAX_turn = true → bt = posInf ∧ al ≠ posInf) ∧
        (b.MAX_turn = false → al = negInf ∧ bt ≠ negInf) := by
      refine ⟨negInf, posInf, rfl, fun _ => ⟨rfl, ?_⟩, fun _ => ⟨rfl, ?_⟩⟩
      · intro hcon
        exact (ne_of_lt botEU_lt_top) hcon
      · intro hcon
        exact (ne_of_lt botEU_lt_top) hcon.symm
    have := (ab_root_loop (countOpen b.tiles) b d (allMoves b)
      (initAcc b (.ab d negInf posInf)) rfl hinv).mp hnone
    exact hlegal this.2

/-- Witness for the amended C2 on the 2x2 board at depth 1. -/
theorem claim_c2_root_chosen_witness :
    ((1 : Int) ≠ 0 ∧ bTwo.done = false ∧
      (∃ m ∈ allMoves bTwo, place bTwo m.1 m.2 ≠ none)) ∧
    ((minimax bTwo 1).1.chosen ≠ none ∧
      (minimax_ab bTwo 1).1.chosen ≠ none) :=
  ⟨⟨by decide, by decide, ⟨(0, 0), by decide, by decide⟩⟩,
   claim_c2_root_chosen bTwo 1 (by decide) (by decide)
     ⟨(0, 0), by decide, by decide⟩⟩

section ChildrenPrefix

theorem bmFuel_board (f : Nat) (b : Board) (nd : NodeData) :
    (bmFuel f b nd).1.board = b := by
  cases f with
  | zero => rfl
  | succ f =>
    rw [bmFuel_succ]
    split_ifs <;> rfl

/-- The loop explores an in-order prefix of the legal successors: the
explored boards extend the accumulator by a `take` of the legal successor
list; the prefix is full when the loop was not broken, and a break records
a pruning node data (`alpha >= beta`). -/
theorem loop_children_take (f : Nat) (b : Board) (ms : List (Int × Int)) :
    ∀ acc : LoopAcc, acc.stopped = false →
      (∃ k, ((ms.foldl (stepMoveF (bmFuel f) b) acc).children).map GTree.board =
        (acc.children.map GTree.board) ++ (legalSucc b ms).take k) ∧
      ((ms.foldl (stepMoveF (bmFuel f) b) acc).stopped = false →
        ((ms.foldl (stepMoveF (bmFuel f) b) acc).children).map GTree.board =
          (acc.children.map GTree.board) ++ legalSucc b ms) ∧
      ((ms.foldl (stepMoveF (bmFuel f) b) acc).stopped = true →
        ((ms.foldl (stepMoveF (bmFuel f) b) acc).nd).prune = true) := by
  induction ms with
  | nil =>
    intro acc h1
    refine ⟨⟨0, by simp [legalSucc]⟩, by simp [legalSucc], ?_⟩
    intro hcon
    rw [List.foldl_nil, h1] at hcon
    exact (Bool.false_ne_true hcon).elim
  | cons m rest ih =>
    intro acc h1
    cases hp : place b m.1 m.2 with
    | none =>
      rw [List.foldl_cons, stepMoveF_illegal _ _ _ _ h1 hp,
        legalSucc_cons_none rest hp]
      exact ih acc h1
    | some nb =>
      rw [List.foldl_cons, stepMoveF_legal _ _ _ _ nb h1 hp,
        legalSucc_cons_some rest hp]
      by_cases hrec : (tempOf (bmFuel f) b acc nb ≠ acc.util ∨
          acc.chosen = none)
      · by_cases hpr : (ndOf (bmFuel f) b acc nb).prune = true
        · rw [stepBody_rec_prune _ _ _ _ hrec hpr, loop_absorb _ _ _ _ rfl]
          refine ⟨⟨1, ?_⟩, ?_, ?_⟩
          · show ((pushAcc (bmFuel f) b acc nb).children).map GTree.board = _
            unfold pushAcc
            simp [bmFuel_board]
          · intro hcon; cases hcon
          · intro _; exact hpr
        · have hprf : (ndOf (bmFuel f) b acc nb).prune = false := by
            simpa using hpr
          rw [stepBody_rec_noprune _ _ _ _ hrec hprf]
          obtain ⟨⟨k, i1⟩, i2, i3⟩ := ih ({ pushAcc (bmFuel f) b acc nb with
              util := tempOf (bmFuel f) b acc nb, chosen := some nb,
              nd := ndOf (bmFuel f) b acc nb }) h1
          refine ⟨⟨k + 1, ?_⟩, ?_, i3⟩
          · rw [i1]
            show ((pushAcc (bmFuel f) b acc nb).children).map GTree.board
              ++ _ = _
            unfold pushAcc
            simp [bmFuel_board]
          · intro hs
            rw [i2 hs]
            show ((pushAcc (bmFuel f) b acc nb).children).map GTree.board
              ++ _ = _
            unfold pushAcc
            simp [bmFuel_board]
      · push_neg at hrec
        rw [stepBody_skip _ _ _ _ hrec.1 hrec.2]
        obtain ⟨⟨k, i1⟩, i2, i3⟩ := ih (pushAcc (bmFuel f) b acc nb) h1
        refine ⟨⟨k + 1, ?_⟩, ?_, i3⟩
        · rw [i1]
          unfold pushAcc
          simp [bmFuel_board]
        · intro hs
          rw [i2 hs]
          unfold pushAcc
          simp [bmFuel_board]

end ChildrenPrefix

/-- C6: the explored children of an expanded node are an in-order prefix of
the node's legal successors (row-major enumeration, non-open squares
skipped); the whole list is explored whenever the loop was not broken — in
particular always under plain minimax — and a break happens only with the
node data signalling `alpha >= beta`. -/
theorem claim_c6_children_in_order (f : Nat) (b : Board) (nd : NodeData)
    (hd : nd.depth ≠ 0) (hdone : b.done = false) :
    (∃ k, ((bmFuel (f + 1) b nd).1.children).map GTree.board =
      (legalSucc b (allMoves b)).take k) ∧
    (((allMoves b).foldl (stepMoveF (bmFuel f) b) (initAcc b nd)).stopped =
        false →
      ((bmFuel (f + 1) b nd).1.children).map GTree.board =
        legalSucc b (allMoves b)) ∧
    (((allMoves b).foldl (stepMoveF (bmFuel f) b) (initAcc b nd)).stopped =
        true →
      (((allMoves b).foldl (stepMoveF (bmFuel f) b) (initAcc b nd)).nd).prune
        = true) ∧
    (∀ d0 : Int, nd = .mm d0 →
      ((bmFuel (f + 1) b nd).1.children).map GTree.board =
        legalSucc b (allMoves b)) := by
  have hcond' : nd.depth ≠ 0 ∧ b.done = false := ⟨hd, hdone⟩
  have hch : (bmFuel (f + 1) b nd).1.children =
      ((allMoves b).foldl (stepMoveF (bmFuel f) b) (initAcc b nd)).children := by
    rw [bmFuel_succ, if_pos hcond']
    rfl
  obtain ⟨⟨k, i1⟩, i2, i3⟩ :=
    loop_children_take f b (allMoves b) (initAcc b nd) rfl
  refine ⟨⟨k, ?_⟩, ?_, i3, ?_⟩
  · rw [hch, i1]
    simp [initAcc]
  · intro hs
    rw [hch, i2 hs]
    simp [initAcc]
  · intro d0 hnd
    subst hnd
    obtain ⟨l1, _, _, _, _, _⟩ :=
      mm_loop f b d0 (allMoves b) (initAcc b (.mm d0)) rfl rfl
    rw [hch, i2 l1]
    simp [initAcc]

/-- Witness for C6: the 2x2 board expanded with pruning data at depth 2. -/
theorem claim_c6_children_in_order_witness :
    ((NodeData.ab 2 negInf posInf).depth ≠ 0 ∧ bTwo.done = false) ∧
    ((∃ k, ((bmFuel (4 + 1) bTwo (.ab 2 negInf posInf)).1.children).map
        GTree.board = (legalSucc bTwo (allMoves bTwo)).take k) ∧
    (((allMoves bTwo).foldl (stepMoveF (bmFuel 4) bTwo)
        (initAcc bTwo (.ab 2 negInf posInf))).stopped = false →
      ((bmFuel (4 + 1) bTwo (.ab 2 negInf posInf)).1.children).map
        GTree.board = legalSucc bTwo (allMoves bTwo)) ∧
    (((allMoves bTwo).foldl (stepMoveF (bmFuel 4) bTwo)
        (initAcc bTwo (.ab 2 negInf posInf))).stopped = true →
      (((allMoves bTwo).foldl (stepMoveF (bmFuel 4) bTwo)
        (initAcc bTwo (.ab 2 negInf posInf))).nd).prune = true) ∧
    (∀ d0 : Int, (NodeData.ab 2 negInf posInf : NodeData) = .mm d0 →
      ((bmFuel (4 + 1) bTwo (.ab 2 negInf posInf)).1.children).map
        GTree.board = legalSucc bTwo (allMoves bTwo))) :=
  ⟨⟨by decide, by decide⟩,
   claim_c6_children_in_order 4 bTwo (.ab 2 negInf posInf)
     (by decide) (by decide)⟩

section Termination

/-- Every unexpanded tip of a search tree wraps a finished game: the shape
an unlimited-depth search always produces. -/
inductive LeavesDone : GTree → Prop where
  | leaf : ∀ (b : Board) (u : Option EU) (c : Option Board),
      b.done = true → LeavesDone (GTree.mk b u c [])
  | node : ∀ (b : Board) (u : Option EU) (c : Option Board)
      (t : GTree) (ts : List GTree),
      (∀ s ∈ t :: ts, LeavesDone s) → LeavesDone (GTree.mk b u c (t :: ts))

theorem depth_child (nd : NodeData) : nd.child.depth = nd.depth - 1 := by
  cases nd <;> rfl

theorem ndOf_depth (recf : Board → NodeData → GTree × Nat) (b : Board)
    (acc : LoopAcc) (nb : Board) :
    (ndOf recf b acc nb).depth = acc.nd.depth := by
  unfold ndOf
  split_ifs
  · cases h : acc.nd <;> rfl
  · cases h : acc.nd <;> rfl

theorem stepBody_nd_depth (recf : Board → NodeData → GTree × Nat)
    (b : Board) (acc : LoopAcc) (nb : Board) :
    (stepBody recf b acc nb).nd.depth = acc.nd.depth := by
  unfold stepBody
  split_ifs <;> first
    | rfl
    | exact ndOf_depth recf b acc nb

theorem stepBody_children (recf : Board → NodeData → GTree × Nat)
    (b : Board) (acc : LoopAcc) (nb : Board) :
    (stepBody recf b acc nb).children =
      acc.children ++ [(recf nb acc.nd.child).1] := by
  unfold stepBody pushAcc
  split_ifs <;> rfl

/-- Children accumulated by the move loop: the list only grows, every new
member is the expansion of some legal successor at one less depth, and at
least one child appears as soon as a legal move exists. -/
theorem loop_children_facts (f : Nat) (b : Board) (d : Int)
    (ms : List (Int × Int)) :
    ∀ acc : LoopAcc, acc.nd.depth = d →
      (∃ l, (ms.foldl (stepMoveF (bmFuel f) b) acc).children =
        acc.children ++ l) ∧
      (∀ t ∈ (ms.foldl (stepMoveF (bmFuel f) b) acc).children,
        t ∈ acc.children ∨
        ∃ nb, nb ∈ legalSucc b ms ∧
          ∃ nd', nd'.depth = d - 1 ∧ t = (bmFuel f nb nd').1) ∧
      (acc.stopped = false → legalSucc b ms ≠ [] →
        (ms.foldl (stepMoveF (bmFuel f) b) acc).children ≠ []) := by
  induction ms with
  | nil =>
    intro acc _
    refine ⟨⟨[], by simp⟩, ?_, ?_⟩
    · intro t ht; exact Or.inl ht
    · intro _ hcon; exact absurd rfl hcon
  | cons m rest ih =>
    intro acc hdep
    by_cases hs : acc.stopped = true
    · rw [loop_absorb _ _ _ _ hs]
      refine ⟨⟨[], by simp⟩, fun t ht => Or.inl ht, ?_⟩
      intro hs' _
      rw [hs] at hs'
      exact Bool.noConfusion hs'
    · have hs' : acc.stopped = false := by simpa using hs
      cases hp : place b m.1 m.2 with
      | none =>
        rw [List.foldl_cons, stepMoveF_illegal _ _ _ _ hs' hp,
          legalSucc_cons_none rest hp]
        exact ih acc hdep
      | some nb =>
        rw [List.foldl_cons, stepMoveF_legal _ _ _ _ nb hs' hp,
          legalSucc_cons_some rest hp]
        have hdep' : (stepBody (bmFuel f) b acc nb).nd.depth = d := by
          rw [stepBody_nd_depth]; exact hdep
        have hch := stepBody_children (bmFuel f) b acc nb
        obtain ⟨⟨l, j1⟩, j2, j3⟩ := ih (stepBody (bmFuel f) b acc nb) hdep'
        refine ⟨⟨[(bmFuel f nb acc.nd.child).1] ++ l, ?_⟩, ?_, ?_⟩
        · rw [j1, hch, List.append_assoc]
        · intro t ht
          rcases j2 t ht with hin | ⟨nb2, hnb2, nd', hnd', hteq⟩
          · rw [hch] at hin
            rcases List.mem_append.mp hin with hin2 | hin2
            · exact Or.inl hin2
            · right
              refine ⟨nb, List.mem_cons_self _ _, acc.nd.child, ?_, ?_⟩
              · rw [depth_child, hdep]
              · exact List.mem_singleton.mp hin2
          · exact Or.inr ⟨nb2, List.mem_cons_of_mem _ hnb2, nd', hnd', hteq⟩
        · intro _ _
          rw [j1, hch, List.append_assoc]
          simp

end Termination

section OpenCellExists

theorem exists_open_in_row (row : List Cell)
    (h : row.countP (fun c => c == Cell.OPEN) ≠ 0) :
    ∃ j, j < row.length ∧ row.getD j Cell.BLOCKED = Cell.OPEN := by
  induction row with
  | nil => simp at h
  | cons a t ih =>
    by_cases ha : a = Cell.OPEN
    · exact ⟨0, by simp, by simp [ha]⟩
    · have hcp : (a :: t).countP (fun c => c == Cell.OPEN) =
          t.countP (fun c => c == Cell.OPEN) := by
        rw [List.countP_cons]
        simp [ha]
      rw [hcp] at h
      obtain ⟨j, hj, hval⟩ := ih h
      refine ⟨j + 1, by simp; omega, by simpa using hval⟩

theorem exists_open_in_grid (g : Grid) (h : countOpen g ≠ 0) :
    ∃ k, k < g.length ∧ ∃ j, j < (g.getD k []).length ∧
      (g.getD k []).getD j Cell.BLOCKED = Cell.OPEN := by
  induction g with
  | nil => simp [countOpen] at h
  | cons r t ih =>
    unfold countOpen at h
    rw [List.map_cons, List.sum_cons] at h
    by_cases hr : r.countP (fun c => c == Cell.OPEN) = 0
    · rw [hr] at h
      simp at h
      obtain ⟨k, hk, j, hj, hval⟩ := ih h
      exact ⟨k + 1, by simp; omega, j, by simpa using hj, by simpa using hval⟩
    · obtain ⟨j, hj, hval⟩ := exists_open_in_row r hr
      exact ⟨0, by simp, j, by simpa using hj, by simpa using hval⟩

/-- A reachable unfinished board always has a legal move: some square is
still open, and placing there succeeds. -/
theorem reachable_legal (b : Board) (hreach : Reachable b)
    (hdone : b.done = false) : legalSucc b (allMoves b) ≠ [] := by
  obtain ⟨hrect, hcnt, hh, hw⟩ := reachable_invariant hreach
  have hocnt : countOpen b.tiles ≠ 0 := by
    intro h0
    unfold Board.done at hdone
    rw [hcnt, h0] at hdone
    simp at hdone
  obtain ⟨k, hk, j, hj, hcell⟩ := exists_open_in_grid b.tiles hocnt
  have hjw : j < b.width := by rw [← hrect k hk]; exact hj
  have hmem : ((k : Int), (j : Int)) ∈ allMoves b := by
    unfold allMoves
    apply List.mem_flatMap.mpr
    refine ⟨k, List.mem_range.mpr hk, ?_⟩
    apply List.mem_map.mpr
    exact ⟨j, List.mem_range.mpr hjw, rfl⟩
  have hplace : place b (k : Int) (j : Int) ≠ none := by
    intro hnone
    rw [place_eq_none_iff] at hnone
    rcases hnone with hcon | hcon | hcon
    · exact hcon ⟨Int.natCast_nonneg k, by exact_mod_cast hk⟩
    · exact hcon ⟨Int.natCast_nonneg j, by exact_mod_cast hjw⟩
    · apply hcon
      unfold cellD
      rw [Int.toNat_natCast, Int.toNat_natCast]
      exact hcell
  intro hnil
  unfold legalSucc at hnil
  rw [List.filterMap_eq_nil] at hnil
  exact hplace (hnil _ hmem)

end OpenCellExists

/-- An unlimited (negative-depth) search always reaches completed games at
its unexpanded tips: the recursion bottoms out at terminal states because
each move strictly shrinks the set of open squares. -/
theorem leaves_done_bmFuel (f : Nat) : ∀ (b : Board) (nd : NodeData),
    countOpen b.tiles < f → Reachable b → nd.depth < 0 →
    LeavesDone (bmFuel f b nd).1 := by
  induction f with
  | zero => intro b nd h _ _; omega
  | succ f ih =>
    intro b nd hf hreach hd
    by_cases hdone : b.done = true
    · rw [bmFuel_leaf (Or.inr hdone)]
      exact LeavesDone.leaf b none none hdone
    · have hdf : b.done = false := by simpa using hdone
      have hcond : nd.depth ≠ 0 ∧ b.done = false := ⟨by omega, hdf⟩
      rw [bmFuel_succ, if_pos hcond]
      obtain ⟨⟨l, hext⟩, hmem, hne⟩ :=
        loop_children_facts f b nd.depth (allMoves b) (initAcc b nd) rfl
      have hlegal := reachable_legal b hreach hdf
      have hchne := hne rfl hlegal
      cases hch : ((allMoves b).foldl (stepMoveF (bmFuel f) b)
          (initAcc b nd)).children with
      | nil => exact absurd hch hchne
      | cons t ts =>
        apply LeavesDone.node
        intro s hs
        rw [← hch] at hs
        rcases hmem s hs with hin | ⟨nb, hnb, nd', hnd', hteq⟩
        · simp [initAcc] at hin
        · unfold legalSucc at hnb
          obtain ⟨m, hm, hpm⟩ := List.mem_filterMap.mp hnb
          rw [hteq]
          exact ih nb nd'
            (by have := place_countOpen_lt hpm; omega)
            (Reachable.step b m.1 m.2 nb hreach hpm)
            (by rw [hnd']; omega)

/-- C10: each successful `place` strictly decreases the number of open
squares (the termination measure of the search recursion), and a negative
depth behaves as an unlimited search: on every reachable board both
`minimax` and `minimax_ab` expand all the way down, so every unexpanded
tip of the returned tree is a finished game. -/
theorem claim_c10_termination :
    (∀ (b : Board) (row col : Int) (b' : Board),
      place b row col = some b' → countOpen b'.tiles < countOpen b.tiles) ∧
    (∀ (b : Board) (d : Int), Reachable b → d < 0 →
      LeavesDone (minimax b d).1 ∧ LeavesDone (minimax_ab b d).1) := by
  constructor
  · intro b row col b' h
    exact place_countOpen_lt h
  · intro b d hreach hd
    constructor
    · exact leaves_done_bmFuel (searchFuel b) b (.mm d)
        (by unfold searchFuel; omega) hreach hd
    · exact leaves_done_bmFuel (searchFuel b) b (.ab d negInf posInf)
        (by unfold searchFuel; omega) hreach hd

/-- Witness for C10: the all-blocking first move on the 2x2 board for the
measure, and the 1x1 board searched at depth -1 for the unlimited case. -/
theorem claim_c10_termination_witness :
    (place bTwo 0 0 = some bTwoAfter ∧
      countOpen bTwoAfter.tiles < countOpen bTwo.tiles) ∧
    (Reachable bOne ∧ (-1 : Int) < 0 ∧
      (LeavesDone (minimax bOne (-1)).1 ∧
        LeavesDone (minimax_ab bOne (-1)).1)) :=
  ⟨⟨by decide, claim_c10_termination.1 bTwo 0 0 bTwoAfter (by decide)⟩,
   ⟨Reachable.created 1 1 bOne (by decide), by decide,
    claim_c10_termination.2 bOne (-1)
      (Reachable.created 1 1 bOne (by decide)) (by decide)⟩⟩
